import Mathlib

/-!
# ebus: an in-process publish/subscribe event bus

A shallow embedding of the Go package `ebus` (files `subscriber.go`, `group.go`,
`bus.go`, `pkg.go`) and a verification of its behavioural contract.

Modelling decisions.

* Go pointers are indices into append-only heaps: `*subscriber[T]` is an index into
  `Bus.smem`, `*group[T]` an index into `Bus.gmem`.  Allocation appends to the heap,
  so a fresh pointer is the old heap length.
* A buffered channel is its buffer (`queue`, oldest element first), its capacity
  (`cap`) and a `closed` flag.  The `done` channel carries no values; it is the flag
  `done`, set when the listener goroutine has closed it.
* The handler `cb` is an arbitrary user function; its observable effect is the
  sequence of events it has been invoked on, recorded in `handled`.
* The static type parameter `T` of `group[T]`, `SubscribeTo[T]`, `Emit[T]` is a
  `Kind`.  The bus stores groups as `any`; the dynamic type of the stored value is
  the field `group.kind`, and the type assertion `o.(*group[T])` compares it with `T`.
* Every operation returns an `Outcome`: it returns normally, it panics, or it blocks
  for ever.  The state at the time of the panic is kept, because a Go panic can be
  recovered (the test suite does so) and the bus can be used afterwards; the state in
  which a goroutine blocks for ever is kept because the other goroutines go on.
* `make(chan T, n)` panics for a negative `n` and for an `n` beyond what the runtime
  can allocate for element type `T`.  That bound is a constant of the runtime and of
  `T`; it is the parameter `lim : Kind → Nat` of `SubscribeTo` and of everything built
  on it.  Running out of memory below that bound ends the process and is outside the
  model.
* Goroutines are interleaved at the granularity of the critical sections of the
  code: `SubscribeTo`, `Emit` and a `StopFn` call are each one step, and so is one
  iteration of a listener's `for ev := range s.queue { cb(ev) }` loop
  (`Action.listen`).  A send that finds the buffer full blocks until the listener has
  taken one event; the step contains that listener iteration.  `group.add` and
  `group.pop` hold the write lock of the group, so they are atomic with respect to
  `group.send`; two `Emit` calls that hold the read lock of one group at the same time
  are taken one after the other.
* Because steps are atomic, the mutex of a group is seen locked only when its holder
  never returns.  `RWMutex` records exactly that: the read locks held by sends that are
  blocked for ever, and whether the write lock is held, or awaited, by a `pop` or `add`
  that is blocked for ever.
* A handler is user code.  In an `Action.listen` step it returns without calling the
  bus; `run` and `Reachable` are about such handlers.  A handler may also never return
  (`Move.stall`) or call a `StopFn` before it returns (`Move.stopInHandler`); `play` and
  `Possible` include these.  While a listener is inside its handler it receives nothing:
  the flag `busy`, which outlasts a move only when the handler never returns.  Other
  calls made by a handler need no move of their own: a call that returns has the effect
  of the listener step followed by the call, and a call that blocks for ever is a
  handler that never returns followed by the call.
* A `StopFn` is the pair of pointers its closure captures.  The runs considered here
  may call any such pair, not only the pairs returned by `SubscribeTo`; a universal
  statement over these runs covers the runs of the program.
-/

namespace Ebus

/-- A static event type `T` (an instantiation of the type parameter). -/
abbrev Kind := Nat

/-- An `EventType` value: the key under which the bus stores a group.  `Hash` and
`Equals` of the Go interface are taken to be a lawful equality, here equality of
natural numbers. -/
abbrev EventType := Nat

/-- An event value `ev` of static type `kind`; `type` is the result of `ev.Type()`. -/
structure Event where
  kind : Kind
  type : EventType
  data : Nat
deriving DecidableEq

/-- How a call ends: normal return with a value, a panic, or blocking for ever.
In each case the state reached is recorded. -/
inductive Outcome (σ : Type) (α : Type) where
  | ok (st : σ) (ret : α)
  | panicked (st : σ)
  | blocked (st : σ)
deriving DecidableEq

/-- The state in which the call ended. -/
def Outcome.state {σ α : Type} : Outcome σ α → σ
  | Outcome.ok st _ => st
  | Outcome.panicked st => st
  | Outcome.blocked st => st

/-- Struct `subscriber[T]`: the channel `queue` (buffer, capacity, closed flag), the
channel `done`, the log of handler invocations made by the listener, and whether the
listener is inside a handler invocation that has not returned. -/
structure subscriber where
  queue : List Event
  cap : Nat
  closed : Bool
  done : Bool
  handled : List Event
  busy : Bool := false
deriving DecidableEq

/-- Function `newConsumer`: `make(chan T, qsize)` panics (`none`) for a negative size
and for a size above `maxCap`, the largest capacity the runtime allocates for the
element type; otherwise an open, empty queue and an open `done` channel. -/
def newConsumer (maxCap : Nat) (qsize : Int) : Option subscriber :=
  if qsize < 0 ∨ (maxCap : Int) < qsize then none
  else some { queue := [], cap := qsize.toNat, closed := false, done := false, handled := [] }

/-- One iteration of the loop of `subscriber.listen`: receive the next event and
invoke the handler on it; when the queue is closed and empty, leave the loop and run
the deferred `close(s.done)`; when it is open and empty, wait.  A listener that has
exited, or is still inside the handler, does nothing. -/
def subscriber.listenStep (s : subscriber) : subscriber :=
  if s.done || s.busy then s
  else
    match s.queue with
    | ev :: rest => { s with queue := rest, handled := s.handled ++ [ev] }
    | [] => if s.closed then { s with done := true } else s

/-- Method `subscriber.listen`, run for `n` loop iterations. -/
def subscriber.listen : Nat → subscriber → subscriber
  | 0, s => s
  | n + 1, s => subscriber.listen n s.listenStep

/-- Method `subscriber.send`: `s.queue <- ev`.  Sending on a closed channel panics.
With room in the buffer the event is appended.  Otherwise the sender blocks until
the listener receives: for an empty buffer (an unbuffered channel) the listener
receives `ev` itself and invokes the handler on it, for a full buffer it receives the
oldest event, which makes room for `ev`.  When the listener has exited or does not
come back from the handler, the sender blocks for ever. -/
def subscriber.send (s : subscriber) (ev : Event) : Outcome subscriber Unit :=
  if s.closed then Outcome.panicked s
  else if s.queue.length < s.cap then Outcome.ok { s with queue := s.queue ++ [ev] } ()
  else if s.done || s.busy then Outcome.blocked s
  else
    match s.queue with
    | [] => Outcome.ok { s with handled := s.handled ++ [ev] } ()
    | e :: rest => Outcome.ok { s with queue := rest ++ [ev], handled := s.handled ++ [e] } ()

/-- Method `subscriber.stop`: `close(s.queue)` panics on a closed channel; then
`<-s.done` waits for the listener, which handles what is left in the buffer (one
iteration per event) and exits (one more iteration); a listener that does not come
back from the handler never closes `done`, and the caller blocks for ever. -/
def subscriber.stop (s : subscriber) : Outcome subscriber Unit :=
  if s.closed then Outcome.panicked s
  else
    let s1 := subscriber.listen (s.queue.length + 1) { s with closed := true }
    if s1.done then Outcome.ok s1 () else Outcome.blocked s1

/-- Type `sync.RWMutex`, as left behind by goroutines that never return: the number
of read locks held by such goroutines, and whether such a goroutine holds the write
lock or waits for it. -/
structure RWMutex where
  readers : Nat := 0
  writer : Bool := false
deriving DecidableEq

/-- Whether `m.Lock()` returns: nobody holds a read lock, nobody holds or awaits the
write lock. -/
def RWMutex.canLock (m : RWMutex) : Bool := !m.writer && m.readers == 0

/-- Whether `m.RLock()` returns: nobody holds or awaits the write lock. -/
def RWMutex.canRLock (m : RWMutex) : Bool := !m.writer

/-- The mutex after a goroutine has called `Lock()` and never unlocks: it holds the
write lock for ever, or waits for it for ever, which also bars new readers. -/
def RWMutex.heldW (m : RWMutex) : RWMutex := { m with writer := true }

/-- The mutex after a goroutine has taken a read lock that it never releases. -/
def RWMutex.heldR (m : RWMutex) : RWMutex := { m with readers := m.readers + 1 }

/-- Struct `group[T]`: the dynamic type `kind` of the group, the mutex `m` and the
slice `subs` of subscriber pointers. -/
structure group where
  kind : Kind
  subs : List Nat
  m : RWMutex := {}
deriving DecidableEq

/-- Function `newGroup`. -/
def newGroup (T : Kind) : group := { kind := T, subs := [] }

/-- The loop of `group.send` over the subscriber pointers still to be served.  A nil
or dangling pointer panics; a panic or a block of `sub.send` ends the loop. -/
def group.sendLoop : List Nat → Event → List subscriber → Outcome (List subscriber) Unit
  | [], _, mem => Outcome.ok mem ()
  | sub :: rest, ev, mem =>
    match mem[sub]? with
    | none => Outcome.panicked mem
    | some s =>
      match s.send ev with
      | Outcome.ok s1 _ => group.sendLoop rest ev (mem.set sub s1)
      | Outcome.panicked s1 => Outcome.panicked (mem.set sub s1)
      | Outcome.blocked s1 => Outcome.blocked (mem.set sub s1)

/-- Method `group.send`: take the read lock, enqueue the event into every subscriber
of the group, in slice order, release the lock (also on a panic, by `defer`).  A send
that blocks for ever keeps the read lock. -/
def group.send (g : group) (ev : Event) (mem : List subscriber) :
    Outcome (group × List subscriber) Unit :=
  if g.m.canRLock then
    match group.sendLoop g.subs ev mem with
    | Outcome.ok mem1 _ => Outcome.ok (g, mem1) ()
    | Outcome.panicked mem1 => Outcome.panicked (g, mem1)
    | Outcome.blocked mem1 => Outcome.blocked ({ g with m := g.m.heldR }, mem1)
  else Outcome.blocked (g, mem)

/-- Method `group.add`: allocate the consumer (this panics for a size that `make`
rejects, before the group is touched), take the write lock, append the pointer to
`subs`, start the listener, release the lock and return the pointer. -/
def group.add (lim : Kind → Nat) (g : group) (qsize : Int) (mem : List subscriber) :
    Outcome (group × List subscriber) Nat :=
  match newConsumer (lim g.kind) qsize with
  | none => Outcome.panicked (g, mem)
  | some c =>
    if g.m.canLock then
      Outcome.ok ({ g with subs := g.subs ++ [mem.length] }, mem ++ [c]) mem.length
    else Outcome.blocked ({ g with m := g.m.heldW }, mem)

/-- Function `slices.Index`: the first position of `x`, if any. -/
def Index : List Nat → Nat → Option Nat
  | [], _ => none
  | y :: ys, x => if y = x then some 0 else (Index ys x).map (· + 1)

/-- The three assignments of `group.pop` that delete position `i`: overwrite it with
the last element, clear the last slot, shrink the slice by one. -/
def swapRemove (subs : List Nat) (i : Nat) : List Nat :=
  match subs.getLast? with
  | none => subs
  | some last => (subs.set i last).dropLast

/-- Method `group.pop`: take the write lock; when the pointer is found in `subs`,
stop the subscriber and delete its slot, otherwise do nothing; release the lock (also
on a panic, by `defer`).  When `stop` blocks for ever the write lock stays held and
the slot is not deleted. -/
def group.pop (g : group) (sub : Nat) (mem : List subscriber) :
    Outcome (group × List subscriber) Unit :=
  if g.m.canLock then
    match Index g.subs sub with
    | none => Outcome.ok (g, mem) ()
    | some i =>
      match mem[sub]? with
      | none => Outcome.panicked (g, mem)
      | some s =>
        match s.stop with
        | Outcome.ok s1 _ =>
          Outcome.ok ({ g with subs := swapRemove g.subs i }, mem.set sub s1) ()
        | Outcome.panicked s1 => Outcome.panicked (g, mem.set sub s1)
        | Outcome.blocked s1 => Outcome.blocked ({ g with m := g.m.heldW }, mem.set sub s1)
  else Outcome.blocked ({ g with m := g.m.heldW }, mem)

/-- Modelled from the spec: the package `haxxmap` is an external dependency whose
source is not part of the repository; `Map.Get` is its non-creating lookup
(`getGroup(key)`), on an association list from keys to group pointers. -/
def Map.Get : List (EventType × Nat) → EventType → Option Nat
  | [], _ => none
  | (k, v) :: rest, et => if k = et then some v else Map.Get rest et

/-- Struct `Bus` together with the memory it points into: the map `groups` from
event types to group pointers, the heap `gmem` of groups and the heap `smem` of
subscribers. -/
structure Bus where
  groups : List (EventType × Nat)
  gmem : List group
  smem : List subscriber
deriving DecidableEq

/-- Function `New`: an empty bus. -/
def New : Bus := { groups := [], gmem := [], smem := [] }

/-- Modelled from the spec: `haxxmap.Map.GetOrCompute` (external dependency) is the
get-or-create of the spec: it returns the value bound to the key, or, when there is
none, calls the factory once, binds its result and returns it.  The factory here is
`newGroup[T]`, which allocates a group. -/
def Bus.GetOrCompute (b : Bus) (et : EventType) (T : Kind) : Nat × Bus :=
  match Map.Get b.groups et with
  | some o => (o, b)
  | none =>
    (b.gmem.length,
      { b with groups := b.groups ++ [(et, b.gmem.length)], gmem := b.gmem ++ [newGroup T] })

/-- Type `StopFn`: the closure `func() { g.pop(s) }`, that is the two pointers it
captures. -/
structure StopFn where
  g : Nat
  s : Nat
deriving DecidableEq

/-- Function `SubscribeTo`: get or create the group of `et`, assert that it is a
`*group[T]`, add a subscriber, return the closure that pops it. -/
def SubscribeTo (lim : Kind → Nat) (b : Bus) (T : Kind) (qsize : Int) (et : EventType) :
    Outcome Bus StopFn :=
  let r := b.GetOrCompute et T
  let b1 := r.2
  match b1.gmem[r.1]? with
  | none => Outcome.panicked b1
  | some g =>
    if g.kind = T then
      match g.add lim qsize b1.smem with
      | Outcome.ok (g1, mem1) s =>
        Outcome.ok { b1 with gmem := b1.gmem.set r.1 g1, smem := mem1 } { g := r.1, s := s }
      | Outcome.panicked _ => Outcome.panicked b1
      | Outcome.blocked (g1, _) => Outcome.blocked { b1 with gmem := b1.gmem.set r.1 g1 }
    else Outcome.panicked b1

/-- Function `On`: `SubscribeTo` with buffer size 1 and the key `ev.Type()` of the
zero value `ev` of `T`. -/
def On (lim : Kind → Nat) (b : Bus) (zero : Event) : Outcome Bus StopFn :=
  SubscribeTo lim b zero.kind 1 zero.type

/-- Function `Emit`: look the group of `ev.Type()` up; when there is one, assert that
it is a `*group[T]` and send the event to it. -/
def Emit (b : Bus) (ev : Event) : Outcome Bus Unit :=
  match Map.Get b.groups ev.type with
  | none => Outcome.ok b ()
  | some o =>
    match b.gmem[o]? with
    | none => Outcome.panicked b
    | some g =>
      if g.kind = ev.kind then
        match g.send ev b.smem with
        | Outcome.ok (g1, mem1) _ =>
          Outcome.ok { b with gmem := b.gmem.set o g1, smem := mem1 } ()
        | Outcome.panicked (g1, mem1) =>
          Outcome.panicked { b with gmem := b.gmem.set o g1, smem := mem1 }
        | Outcome.blocked (g1, mem1) =>
          Outcome.blocked { b with gmem := b.gmem.set o g1, smem := mem1 }
      else Outcome.panicked b

/-- Calling a `StopFn` from a goroutine that is not a listener: `g.pop(s)`. -/
def StopFn.call (f : StopFn) (b : Bus) : Outcome Bus Unit :=
  match b.gmem[f.g]? with
  | none => Outcome.panicked b
  | some g =>
    match g.pop f.s b.smem with
    | Outcome.ok (g1, mem1) _ => Outcome.ok { b with gmem := b.gmem.set f.g g1, smem := mem1 } ()
    | Outcome.panicked (g1, mem1) => Outcome.panicked { b with gmem := b.gmem.set f.g g1, smem := mem1 }
    | Outcome.blocked (g1, mem1) => Outcome.blocked { b with gmem := b.gmem.set f.g g1, smem := mem1 }

/-- The scheduler runs one loop iteration of the listener goroutine of subscriber
`sub`; the handler, if invoked, returns without calling the bus. -/
def Bus.listen (b : Bus) (sub : Nat) : Bus :=
  match b.smem[sub]? with
  | none => b
  | some s => { b with smem := b.smem.set sub s.listenStep }

/-- What can happen next to a bus whose handlers return and do not call the bus: a call
of the public interface by a goroutine that is not a listener, or a step of a listener
goroutine. -/
inductive Action where
  | subscribe (T : Kind) (qsize : Int) (et : EventType)
  | emit (ev : Event)
  | stop (f : StopFn)
  | listen (sub : Nat)
deriving DecidableEq

/-- The state after one action. -/
def step (lim : Kind → Nat) (b : Bus) : Action → Bus
  | Action.subscribe T qsize et => (SubscribeTo lim b T qsize et).state
  | Action.emit ev => (Emit b ev).state
  | Action.stop f => (f.call b).state
  | Action.listen sub => b.listen sub

/-- The state after a sequence of actions. -/
def run (lim : Kind → Nat) : List Action → Bus → Bus
  | [], b => b
  | a :: rest, b => run lim rest (step lim b a)

/-- The states the program can be in when its handlers return and do not call the bus:
those reached from `New()` by some sequence of actions. -/
def Reachable (lim : Kind → Nat) (b : Bus) : Prop := ∃ acts : List Action, run lim acts New = b

/-- The listener of `sub` receives the next event and invokes the handler, and the
handler never returns. -/
def Bus.listenStall (b : Bus) (sub : Nat) : Bus :=
  match b.smem[sub]? with
  | none => b
  | some s =>
    if s.done || s.busy then b
    else
      match s.queue with
      | [] => b
      | ev :: rest =>
        { b with
          smem := b.smem.set sub
            { s with queue := rest, handled := s.handled ++ [ev], busy := true } }

/-- The handler of `sub` has returned: its listener goes back to the loop. -/
def Bus.resume (b : Bus) (sub : Nat) : Bus :=
  match b.smem[sub]? with
  | none => b
  | some s => { b with smem := b.smem.set sub { s with busy := false } }

/-- The listener of `sub` receives the next event and invokes the handler, and the
handler calls the `StopFn` `f` and then returns.  While the call lasts the listener is
inside the handler; when the call does not return, neither does the handler. -/
def StopFn.callFromHandler (f : StopFn) (sub : Nat) (b : Bus) : Outcome Bus Unit :=
  match b.smem[sub]? with
  | none => Outcome.ok b ()
  | some s =>
    if s.done || s.busy then Outcome.ok b ()
    else
      match s.queue with
      | [] => Outcome.ok b ()
      | ev :: rest =>
        match f.call
            { b with
              smem := b.smem.set sub
                { s with queue := rest, handled := s.handled ++ [ev], busy := true } } with
        | Outcome.ok b1 _ => Outcome.ok (b1.resume sub) ()
        | Outcome.panicked b1 => Outcome.panicked b1
        | Outcome.blocked b1 => Outcome.blocked b1

/-- What can happen next to a bus with arbitrary handlers: an action, a handler that
never returns, or a handler that calls a `StopFn`. -/
inductive Move where
  | act (a : Action)
  | stall (sub : Nat)
  | stopInHandler (sub : Nat) (f : StopFn)
deriving DecidableEq

/-- The state after one move. -/
def move (lim : Kind → Nat) (b : Bus) : Move → Bus
  | Move.act a => step lim b a
  | Move.stall sub => b.listenStall sub
  | Move.stopInHandler sub f => (f.callFromHandler sub b).state

/-- The state after a sequence of moves. -/
def play (lim : Kind → Nat) : List Move → Bus → Bus
  | [], b => b
  | m :: rest, b => play lim rest (move lim b m)

/-- The states the program can be in, whatever its handlers do: those reached from
`New()` by some sequence of moves. -/
def Possible (lim : Kind → Nat) (b : Bus) : Prop := ∃ ms : List Move, play lim ms New = b


/-- A subscriber whose listener is running: the queue is open, the listener has not
exited, the buffer holds no more than its capacity, and the listener is in its loop,
not inside the handler. -/
def subscriber.Running (s : subscriber) : Prop :=
  s.closed = false ∧ s.done = false ∧ s.queue.length ≤ s.cap ∧ s.busy = false

/-- State Stopped of a subscriber: the queue is closed and drained and the listener
has exited. -/
def subscriber.Stopped (s : subscriber) : Prop :=
  s.closed = true ∧ s.done = true ∧ s.queue = []

/-- The events a subscriber has accepted so far: those already handed to the handler
followed by those still pending in the queue. -/
def subscriber.received (s : subscriber) : List Event := s.handled ++ s.queue

/-- The subscriber pointers held by the group at pointer `gp`. -/
def Bus.subsOf (b : Bus) (gp : Nat) : List Nat :=
  match b.gmem[gp]? with
  | some g => g.subs
  | none => []

/-- The structural invariant of the bus and its memory, for handlers that return and
do not call the bus. -/
structure Inv (b : Bus) : Prop where
  keys_nodup : (b.groups.map Prod.fst).Nodup
  ptrs : b.groups.map Prod.snd = List.range b.gmem.length
  subs_nodup : ∀ (gp : Nat) (g : group), b.gmem[gp]? = some g → g.subs.Nodup
  subs_live : ∀ (gp : Nat) (g : group) (sub : Nat), b.gmem[gp]? = some g → sub ∈ g.subs →
    ∃ s : subscriber, b.smem[sub]? = some s ∧ s.Running
  subs_disj : ∀ (gp1 gp2 : Nat) (g1 g2 : group) (sub : Nat), b.gmem[gp1]? = some g1 → b.gmem[gp2]? = some g2 →
    sub ∈ g1.subs → sub ∈ g2.subs → gp1 = gp2
  closed_stopped : ∀ (sub : Nat) (s : subscriber), b.smem[sub]? = some s → s.closed = true → s.Stopped
  locks_free : ∀ (gp : Nat) (g : group), b.gmem[gp]? = some g → g.m = {}

/-- The events of kind `T` emitted under key `k` by a sequence of actions, in the
order of emission. -/
def emitted (k : EventType) (T : Kind) : List Action → List Event
  | [] => []
  | Action.emit ev :: rest =>
    if ev.type = k ∧ ev.kind = T then ev :: emitted k T rest else emitted k T rest
  | _ :: rest => emitted k T rest

/-- The subscribers registered under key `k`. -/
def Bus.subsOfKey (b : Bus) (k : EventType) : List Nat :=
  match Map.Get b.groups k with
  | some o => b.subsOf o
  | none => []

/-- The number of events subscriber `sub` has accepted (handled or still queued). -/
def Bus.receivedCount (b : Bus) (sub : Nat) : Nat :=
  match b.smem[sub]? with
  | some s => s.received.length
  | none => 0

/-- The number of handler invocations of subscriber `sub`. -/
def Bus.handledCount (b : Bus) (sub : Nat) : Nat :=
  match b.smem[sub]? with
  | some s => s.handled.length
  | none => 0

/-- The number of events accepted by all subscribers registered under `keys`. -/
def Bus.totalReceived (b : Bus) (keys : List EventType) : Nat :=
  (keys.map fun k => ((b.subsOfKey k).map b.receivedCount).sum).sum

/-- The number of handler invocations of all subscribers registered under `keys`. -/
def Bus.totalHandled (b : Bus) (keys : List EventType) : Nat :=
  (keys.map fun k => ((b.subsOfKey k).map b.handledCount).sum).sum

/-- The actions of the delivery phase: emitting and listener progress. -/
def Action.isDelivery : Action → Bool
  | Action.emit _ => true
  | Action.listen _ => true
  | _ => false

/-- How many of the given buffer sizes `make` accepts for a channel whose largest
capacity is `maxCap`. -/
def validSizes (maxCap : Nat) (sizes : List Int) : Nat :=
  sizes.countP fun n => decide (0 ≤ n ∧ n ≤ (maxCap : Int))

/-! ## Concrete scenarios, following the test suite -/

/-- A runtime in which a channel of any element type holds at most 64 elements. -/
def smallLim : Kind → Nat := fun _ => 64

/-- An event of the first test kind (`MyIntEvent1`): kind 1, key 0. -/
def intEvent (n : Nat) : Event := { kind := 1, type := 0, data := n }

/-- An event of a second kind that claims the key of the first. -/
def alienEvent : Event := { kind := 2, type := 0, data := 5 }

/-- An event of the second test kind (`MyIntEvent2`): kind 2, key 1. -/
def otherEvent : Event := { kind := 2, type := 1, data := 7 }

/-- A channel event (`MyChannelEvent`): kind 3, key `10 + channel`. -/
def chanEvent (channel : Nat) : Event := { kind := 3, type := 10 + channel, data := channel }

/-- The bus of `TestSubscribeDifferentType` and `TestUnsubscribe` after the first
subscription. -/
def busOne : Bus :=
  { groups := [(0, 0)]
    gmem := [{ kind := 1, subs := [0] }]
    smem := [{ queue := [], cap := 1, closed := false, done := false, handled := [] }] }

/-- The bus `busOne` after two emits: the first event has been handled, the second is
in the buffer. -/
def busTwoEmits : Bus :=
  run smallLim [Action.emit (intEvent 1), Action.emit (intEvent 2)] busOne

/-- The bus of `TestChannelMatrix` with two subscribers on each of two channels. -/
def busMatrix : Bus :=
  run smallLim [Action.subscribe 3 1 10, Action.subscribe 3 1 11, Action.subscribe 3 1 10,
    Action.subscribe 3 1 11] New

/-- A delivery phase on `busMatrix`: two emits per channel, then the listeners drain. -/
def matrixActs : List Action :=
  [Action.emit (chanEvent 0), Action.emit (chanEvent 1), Action.emit (chanEvent 0),
    Action.emit (chanEvent 1), Action.listen 0, Action.listen 1, Action.listen 2,
    Action.listen 3]

/-- A bus with three subscribers in one group. -/
def busThree : Bus :=
  run smallLim [Action.subscribe 1 0 0, Action.subscribe 1 2 0, Action.subscribe 1 2 0] New

/-- The part of the invariant that holds whatever the handlers do: the pointers in a
group's collection are pairwise distinct and point to allocated subscribers. -/
def WInv (b : Bus) : Prop :=
  ∀ gp : Nat, (b.subsOf gp).Nodup ∧ ∀ sub ∈ b.subsOf gp, sub < b.smem.length

/-- How the collections can differ between a state and a later one after one move: no
subscriber and no group is ever deallocated, and a collection is untouched, or has got
the subscriber allocated by the move appended, or has lost one slot by `pop`. -/
structure Grows (b b1 : Bus) : Prop where
  slen : b.smem.length ≤ b1.smem.length
  glen : b.gmem.length ≤ b1.gmem.length
  subs : ∀ gp : Nat, b1.subsOf gp = b.subsOf gp ∨
    (b1.subsOf gp = b.subsOf gp ++ [b.smem.length] ∧ b.smem.length < b1.smem.length) ∨
    ∃ x i, Index (b.subsOf gp) x = some i ∧ b1.subsOf gp = swapRemove (b.subsOf gp) i

/-- The bus `busOne` after one emit and after the handler of its subscriber, invoked on
that event, has called the subscriber's own `StopFn`: the call holds the write lock and
waits for a listener that is inside this very handler. -/
def busSelfStop : Bus :=
  { groups := [(0, 0)]
    gmem := [{ kind := 1, subs := [0], m := { readers := 0, writer := true } }]
    smem := [{ queue := [], cap := 1, closed := true, done := false,
               handled := [intEvent 1], busy := true }] }

/-- The bus `busOne` after its subscriber has been unsubscribed. -/
def busOneStopped : Bus :=
  { groups := [(0, 0)]
    gmem := [{ kind := 1, subs := [] }]
    smem := [{ queue := [], cap := 1, closed := true, done := true, handled := [] }] }

/-- Two subscribers of one kind on one key, the first of them already unsubscribed. -/
def busPairStopped : Bus :=
  { groups := [(0, 0)]
    gmem := [{ kind := 1, subs := [1] }]
    smem := [{ queue := [], cap := 1, closed := true, done := true, handled := [] },
             { queue := [], cap := 1, closed := false, done := false, handled := [] }] }

/-- What happens to `busPairStopped` next: an emit, the handler of the second subscriber
is invoked on that event and never returns, and two more emits, of which the second
finds the buffer full. -/
def stallMoves : List Move :=
  [Move.act (Action.emit (intEvent 1)), Move.stall 1, Move.act (Action.emit (intEvent 2)),
    Move.act (Action.emit (intEvent 3))]

/-- The bus `busPairStopped` after `stallMoves`: the last send is blocked for ever and
holds the read lock of the group. -/
def busStalled : Bus :=
  { groups := [(0, 0)]
    gmem := [{ kind := 1, subs := [1], m := { readers := 1, writer := false } }]
    smem := [{ queue := [], cap := 1, closed := true, done := true, handled := [] },
             { queue := [intEvent 2], cap := 1, closed := false, done := false,
               handled := [intEvent 1], busy := true }] }

/-! ## Subscribers -/

theorem listen_closed_drains (q : List Event) (c : Nat) (h : List Event) :
    subscriber.listen (q.length + 1)
        { queue := q, cap := c, closed := true, done := false, handled := h }
      = { queue := [], cap := c, closed := true, done := true, handled := h ++ q } := by
  induction q generalizing h with
  | nil => simp [subscriber.listen, subscriber.listenStep]
  | cons e q ih =>
    have := ih (h ++ [e])
    simp only [List.length_cons, subscriber.listen, subscriber.listenStep] at this ⊢
    simpa using this

theorem stop_running (s : subscriber) (hc : s.closed = false) (hd : s.done = false)
    (hb : s.busy = false) :
    s.stop = Outcome.ok
      { queue := [], cap := s.cap, closed := true, done := true, handled := s.handled ++ s.queue }
      () := by
  obtain ⟨q, c, cl, d, h, bz⟩ := s
  simp only at hc hd hb
  subst hc hd hb
  simp [subscriber.stop, listen_closed_drains]

theorem send_running (s : subscriber) (ev : Event) (hc : s.closed = false) (hd : s.done = false)
    (hb : s.busy = false) :
    ∃ s1, s.send ev = Outcome.ok s1 () ∧ s1.closed = false ∧ s1.done = false ∧ s1.cap = s.cap ∧
      s1.received = s.received ++ [ev] ∧ (s.queue.length ≤ s.cap → s1.queue.length ≤ s1.cap) ∧
      (∃ l, s1.handled = s.handled ++ l) := by
  obtain ⟨q, c, cl, d, h, bz⟩ := s
  simp only at hc hd hb
  subst hc hd hb
  by_cases hlt : q.length < c
  · refine ⟨{ queue := q ++ [ev], cap := c, closed := false, done := false, handled := h },
      ?_, rfl, rfl, rfl, ?_, ?_, ⟨[], by simp⟩⟩
    · simp [subscriber.send, hlt]
    · simp [subscriber.received]
    · intro _; simp; omega
  · cases q with
    | nil =>
      refine ⟨{ queue := [], cap := c, closed := false, done := false, handled := h ++ [ev] },
        ?_, rfl, rfl, rfl, ?_, ?_, ⟨[ev], rfl⟩⟩
      · simp only [List.length_nil] at hlt
        simp [subscriber.send, hlt]
      · simp [subscriber.received]
      · intro hh; simp
    | cons e rest =>
      refine ⟨{ queue := rest ++ [ev], cap := c, closed := false, done := false,
                handled := h ++ [e] }, ?_, rfl, rfl, rfl, ?_, ?_, ⟨[e], rfl⟩⟩
      · simp only [List.length_cons] at hlt
        simp [subscriber.send, hlt]
      · simp [subscriber.received]
      · intro hh; simpa using hh

/-- A send changes neither the flags of the channels nor the state of the listener,
however it ends. -/
theorem send_flags (s : subscriber) (ev : Event) :
    (s.send ev).state.closed = s.closed ∧ (s.send ev).state.done = s.done ∧
      (s.send ev).state.busy = s.busy := by
  unfold subscriber.send
  split
  · exact ⟨rfl, rfl, rfl⟩
  · split
    · exact ⟨rfl, rfl, rfl⟩
    · split
      · exact ⟨rfl, rfl, rfl⟩
      · split <;> exact ⟨rfl, rfl, rfl⟩

theorem send_running_keeps (s s1 : subscriber) (ev : Event) (hr : s.Running)
    (h : s.send ev = Outcome.ok s1 ()) : s1.Running ∧ s1.received = s.received ++ [ev] := by
  obtain ⟨s2, h2, a, b, c, d, e, _⟩ := send_running s ev hr.1 hr.2.1 hr.2.2.2
  have hf := (send_flags s ev).2.2
  rw [h2] at h
  cases h
  rw [h2] at hf
  exact ⟨⟨a, b, e hr.2.2.1, hf.trans hr.2.2.2⟩, d⟩

theorem listenStep_running (s : subscriber) (hr : s.Running) :
    s.listenStep.Running ∧ s.listenStep.received = s.received := by
  obtain ⟨q, c, cl, d, h, bz⟩ := s
  obtain ⟨hc, hd, hq, hb⟩ := hr
  simp only at hc hd hq hb
  subst hc hd hb
  cases q with
  | nil => simp [subscriber.listenStep, subscriber.Running, subscriber.received]
  | cons e rest =>
    simp [subscriber.listenStep, subscriber.Running, subscriber.received] at hq ⊢
    omega

theorem listenStep_closed (s : subscriber) : s.listenStep.closed = s.closed := by
  obtain ⟨q, c, cl, d, h, bz⟩ := s
  cases d <;> cases bz <;> cases q <;> cases cl <;> rfl

theorem listenStep_handled (s : subscriber) : ∃ l, s.listenStep.handled = s.handled ++ l := by
  unfold subscriber.listenStep
  split
  · exact ⟨[], by simp⟩
  · split
    · exact ⟨_, rfl⟩
    · split
      · exact ⟨[], by simp⟩
      · exact ⟨[], by simp⟩

theorem listenStep_stopped (s : subscriber) (hs : s.Stopped) : s.listenStep = s := by
  simp [subscriber.listenStep, hs.2.1]

/-! ## Lists, `slices.Index`, and the deletion by swapping with the last element -/

theorem set_same {α : Type} (l : List α) (i : Nat) (x : α) (h : l[i]? = some x) :
    l.set i x = l := by
  induction l generalizing i with
  | nil => rfl
  | cons a l ih =>
    cases i with
    | zero => simp at h; simp [h]
    | succ i => simp at h; simp [ih i h]

theorem lt_of_getElem? {α : Type} (l : List α) (i : Nat) (x : α) (h : l[i]? = some x) :
    i < l.length := by
  obtain ⟨h1, _⟩ := List.getElem?_eq_some.mp h
  exact h1

theorem Index_none (l : List Nat) (x : Nat) : Index l x = none ↔ x ∉ l := by
  induction l with
  | nil => simp [Index]
  | cons y ys ih =>
    by_cases hy : y = x
    · simp [Index, hy]
    · have hx : ¬ x = y := fun h => hy h.symm
      simp [Index, hy, hx, ih]

theorem Index_some (l : List Nat) (x i : Nat) (h : Index l x = some i) :
    ∃ a b, l = a ++ x :: b ∧ x ∉ a ∧ a.length = i := by
  induction l generalizing i with
  | nil => simp [Index] at h
  | cons y ys ih =>
    by_cases hy : y = x
    · simp [Index, hy] at h
      exact ⟨[], ys, by simp [hy], by simp, by simpa using h⟩
    · simp only [Index, hy, if_false, Option.map_eq_some'] at h
      obtain ⟨j, hj, rfl⟩ := h
      obtain ⟨a, b, hl, hna, hlen⟩ := ih j hj
      refine ⟨y :: a, b, by simp [hl], ?_, by simp [hlen]⟩
      simp only [List.mem_cons, not_or]
      exact ⟨fun h => hy h.symm, hna⟩

theorem swapRemove_split (a b : List Nat) (x : Nat) :
    (swapRemove (a ++ x :: b) a.length).Perm (a ++ b) := by
  rcases List.eq_nil_or_concat b with hb | ⟨b1, l, hb⟩
  · subst hb
    have h1 : (a ++ [x]).getLast? = some x := List.getLast?_concat a
    simp [swapRemove, h1]
  · rw [List.concat_eq_append] at hb
    subst hb
    have h1 : (a ++ x :: (b1 ++ [l])).getLast? = some l := by
      have : a ++ x :: (b1 ++ [l]) = (a ++ x :: b1) ++ [l] := by simp
      rw [this]; exact List.getLast?_concat _
    have h2 : (a ++ x :: (b1 ++ [l])).set a.length l = (a ++ l :: b1) ++ [l] := by
      simp
    simp only [swapRemove, h1, h2, List.dropLast_concat]
    refine List.Perm.append_left a ?_
    simpa using (@List.perm_append_comm _ [l] b1)

theorem swapRemove_perm_erase (l : List Nat) (x i : Nat) (h : Index l x = some i) :
    (swapRemove l i).Perm (l.erase x) := by
  obtain ⟨a, b, rfl, hna, rfl⟩ := Index_some l x i h
  have h1 : (a ++ x :: b).erase x = a ++ b := by
    rw [List.erase_append_right _ hna]; simp
  rw [h1]
  exact swapRemove_split a b x

theorem swapRemove_mem (l : List Nat) (x i y : Nat) (h : Index l x = some i) (hn : l.Nodup) :
    y ∈ swapRemove l i ↔ y ∈ l ∧ y ≠ x := by
  rw [(swapRemove_perm_erase l x i h).mem_iff, hn.mem_erase_iff]
  exact And.comm

theorem swapRemove_nodup (l : List Nat) (x i : Nat) (h : Index l x = some i) (hn : l.Nodup) :
    (swapRemove l i).Nodup :=
  (swapRemove_perm_erase l x i h).nodup_iff.mpr (hn.erase x)

/-! ## The map from event types to group pointers -/

theorem Get_none (m : List (EventType × Nat)) (k : EventType) :
    Map.Get m k = none ↔ k ∉ m.map Prod.fst := by
  induction m with
  | nil => simp [Map.Get]
  | cons p m ih =>
    obtain ⟨k1, v⟩ := p
    by_cases hk : k1 = k
    · simp [Map.Get, hk]
    · have hk2 : ¬ k = k1 := fun h => hk h.symm
      simp [Map.Get, hk, hk2, ih]

theorem Get_some_mem (m : List (EventType × Nat)) (k : EventType) (v : Nat)
    (h : Map.Get m k = some v) : (k, v) ∈ m := by
  induction m with
  | nil => simp [Map.Get] at h
  | cons p m ih =>
    obtain ⟨k1, v1⟩ := p
    by_cases hk : k1 = k
    · simp [Map.Get, hk] at h
      simp [hk, h]
    · simp only [Map.Get, hk, if_false] at h
      exact List.mem_cons_of_mem _ (ih h)

theorem Get_append (m : List (EventType × Nat)) (k k1 : EventType) (v : Nat) :
    Map.Get (m ++ [(k1, v)]) k =
      match Map.Get m k with
      | some o => some o
      | none => if k1 = k then some v else none := by
  induction m with
  | nil => simp [Map.Get]
  | cons p m ih =>
    obtain ⟨k2, v2⟩ := p
    by_cases hk : k2 = k
    · simp [Map.Get, hk]
    · simp only [List.cons_append, Map.Get, hk, if_false]
      exact ih

theorem Get_inj (m : List (EventType × Nat)) (k1 k2 : EventType) (v : Nat)
    (hn : (m.map Prod.snd).Nodup) (h1 : Map.Get m k1 = some v) (h2 : Map.Get m k2 = some v) :
    k1 = k2 := by
  induction m with
  | nil => simp [Map.Get] at h1
  | cons p m ih =>
    obtain ⟨k, w⟩ := p
    simp only [List.map_cons, List.nodup_cons] at hn
    by_cases ha : k = k1
    · by_cases hb : k = k2
      · rw [← ha, ← hb]
      · subst ha
        simp only [Map.Get, hb, if_true, if_false, Option.some.injEq] at h1 h2
        subst h1
        exact absurd (List.mem_map_of_mem Prod.snd (Get_some_mem m k2 _ h2)) hn.1
    · by_cases hb : k = k2
      · subst hb
        simp only [Map.Get, ha, if_true, if_false, Option.some.injEq] at h1 h2
        subst h2
        exact absurd (List.mem_map_of_mem Prod.snd (Get_some_mem m k1 _ h1)) hn.1
      · simp only [Map.Get, ha, hb, if_false] at h1 h2
        exact ih hn.2 h1 h2

/-! ## Effects of the operations on a well-formed bus -/

theorem sendLoop_ok (ev : Event) (subs : List Nat) (mem : List subscriber) (hn : subs.Nodup)
    (hl : ∀ sub ∈ subs, ∃ s : subscriber, mem[sub]? = some s ∧ s.Running) :
    ∃ mem1, group.sendLoop subs ev mem = Outcome.ok mem1 () ∧ mem1.length = mem.length ∧
      (∀ i, i ∉ subs → mem1[i]? = mem[i]?) ∧
      (∀ i ∈ subs, ∀ s : subscriber, mem[i]? = some s →
        ∃ s1, s.send ev = Outcome.ok s1 () ∧ mem1[i]? = some s1) := by
  induction subs generalizing mem with
  | nil => exact ⟨mem, rfl, rfl, fun _ _ => rfl, fun i hi => absurd hi (List.not_mem_nil i)⟩
  | cons sub rest ih =>
    obtain ⟨hsub, hrest⟩ := List.nodup_cons.mp hn
    obtain ⟨s, hs, hrun⟩ := hl sub (List.mem_cons_self _ _)
    obtain ⟨s1, hsend, _, _, _, _, _, _⟩ := send_running s ev hrun.1 hrun.2.1 hrun.2.2.2
    have hlt : sub < mem.length := lt_of_getElem? mem sub s hs
    have hl2 : ∀ x ∈ rest, ∃ t : subscriber, (mem.set sub s1)[x]? = some t ∧ t.Running := by
      intro x hx
      have hne : sub ≠ x := fun h => hsub (h ▸ hx)
      rw [List.getElem?_set_ne hne]
      exact hl x (List.mem_cons_of_mem _ hx)
    obtain ⟨mem1, h1, h2, h3, h4⟩ := ih (mem.set sub s1) hrest hl2
    refine ⟨mem1, ?_, ?_, ?_, ?_⟩
    · simp only [group.sendLoop, hs, hsend]
      exact h1
    · simpa using h2
    · intro i hi
      simp only [List.mem_cons, not_or] at hi
      rw [h3 i hi.2, List.getElem?_set_ne (fun h => hi.1 h.symm)]
    · intro i hi t ht
      rcases List.mem_cons.mp hi with rfl | hi
      · rw [hs] at ht
        cases ht
        refine ⟨s1, hsend, ?_⟩
        rw [h3 i hsub, List.getElem?_set_self hlt]
      · have hne : sub ≠ i := fun h => hsub (h ▸ hi)
        exact h4 i hi t (by rw [List.getElem?_set_ne hne]; exact ht)

theorem Emit_hit (b : Bus) (ev : Event) (hinv : Inv b) (o : Nat) (g : group)
    (h1 : Map.Get b.groups ev.type = some o) (h2 : b.gmem[o]? = some g)
    (h3 : g.kind = ev.kind) :
    ∃ mem1, Emit b ev = Outcome.ok { b with smem := mem1 } () ∧
      mem1.length = b.smem.length ∧
      (∀ i, i ∉ g.subs → mem1[i]? = b.smem[i]?) ∧
      (∀ i ∈ g.subs, ∀ s : subscriber, b.smem[i]? = some s →
        ∃ s1, s.send ev = Outcome.ok s1 () ∧ mem1[i]? = some s1) := by
  obtain ⟨mem1, ha, hb, hc, hd⟩ :=
    sendLoop_ok ev g.subs b.smem (hinv.subs_nodup o g h2) (hinv.subs_live o g · h2)
  refine ⟨mem1, ?_, hb, hc, hd⟩
  have hl : g.m.canRLock = true := by rw [hinv.locks_free o g h2]; rfl
  simp only [Emit, h1, h2, h3, if_true, group.send, hl, ha, set_same b.gmem o g h2]

theorem Emit_miss (b : Bus) (ev : Event)
    (h : Map.Get b.groups ev.type = none ∨
      ∃ o, Map.Get b.groups ev.type = some o ∧
        (b.gmem[o]? = none ∨ ∃ g, b.gmem[o]? = some g ∧ g.kind ≠ ev.kind)) :
    (Emit b ev).state = b := by
  rcases h with h | ⟨o, h1, h2 | ⟨g, h2, h3⟩⟩
  · simp [Emit, h, Outcome.state]
  · simp [Emit, h1, h2, Outcome.state]
  · simp [Emit, h1, h2, h3, Outcome.state]

theorem Emit_cases (b : Bus) (ev : Event) :
    (Map.Get b.groups ev.type = none ∨
      ∃ o, Map.Get b.groups ev.type = some o ∧
        (b.gmem[o]? = none ∨ ∃ g, b.gmem[o]? = some g ∧ g.kind ≠ ev.kind)) ∨
    ∃ o g, Map.Get b.groups ev.type = some o ∧ b.gmem[o]? = some g ∧ g.kind = ev.kind := by
  cases h1 : Map.Get b.groups ev.type with
  | none => exact Or.inl (Or.inl rfl)
  | some o =>
    cases h2 : b.gmem[o]? with
    | none => exact Or.inl (Or.inr ⟨o, rfl, Or.inl h2⟩)
    | some g =>
      by_cases h3 : g.kind = ev.kind
      · exact Or.inr ⟨o, g, rfl, h2, h3⟩
      · exact Or.inl (Or.inr ⟨o, rfl, Or.inr ⟨g, h2, h3⟩⟩)

theorem call_absent (f : StopFn) (b : Bus) (g : group) (h1 : b.gmem[f.g]? = some g)
    (h2 : f.s ∉ g.subs) (hfree : g.m = {}) : f.call b = Outcome.ok b () := by
  have h3 : Index g.subs f.s = none := (Index_none _ _).mpr h2
  have hl : g.m.canLock = true := by rw [hfree]; rfl
  simp [StopFn.call, h1, group.pop, hl, h3, set_same b.gmem f.g g h1]

theorem call_dangling (f : StopFn) (b : Bus) (h1 : b.gmem[f.g]? = none) :
    f.call b = Outcome.panicked b := by
  simp [StopFn.call, h1]

theorem call_present (f : StopFn) (b : Bus) (hinv : Inv b) (g : group)
    (h1 : b.gmem[f.g]? = some g) (h2 : f.s ∈ g.subs) :
    ∃ i s, Index g.subs f.s = some i ∧ b.smem[f.s]? = some s ∧ s.Running ∧
      f.call b = Outcome.ok
        { b with
          gmem := b.gmem.set f.g { g with subs := swapRemove g.subs i }
          smem := b.smem.set f.s
            { queue := [], cap := s.cap, closed := true, done := true,
              handled := s.handled ++ s.queue } } () := by
  cases hi : Index g.subs f.s with
  | none => exact absurd h2 ((Index_none _ _).mp hi)
  | some i =>
    obtain ⟨s, hs, hrun⟩ := hinv.subs_live f.g g f.s h1 h2
    refine ⟨i, s, rfl, hs, hrun, ?_⟩
    have hl : g.m.canLock = true := by rw [hinv.locks_free f.g g h1]; rfl
    simp [StopFn.call, h1, group.pop, hl, hi, hs, stop_running s hrun.1 hrun.2.1 hrun.2.2.2]

theorem get_set_cases {α : Type} (l : List α) (i j : Nat) (x y : α)
    (h : (l.set i x)[j]? = some y) : (j = i ∧ y = x) ∨ (j ≠ i ∧ l[j]? = some y) := by
  by_cases hij : i = j
  · subst hij
    rw [List.getElem?_set_self'] at h
    cases hl : l[i]? with
    | none => simp [hl] at h
    | some z => simp [hl] at h; exact Or.inl ⟨rfl, h.symm⟩
  · rw [List.getElem?_set_ne hij] at h
    exact Or.inr ⟨fun h2 => hij h2.symm, h⟩

theorem get_concat_cases {α : Type} (l : List α) (j : Nat) (x y : α)
    (h : (l ++ [x])[j]? = some y) : (j = l.length ∧ y = x) ∨ (j < l.length ∧ l[j]? = some y) := by
  by_cases hj : j < l.length
  · rw [List.getElem?_append_left hj] at h
    exact Or.inr ⟨hj, h⟩
  · have h2 := lt_of_getElem? _ _ _ h
    simp only [List.length_append, List.length_singleton] at h2
    have h3 : j = l.length := by omega
    subst h3
    rw [List.getElem?_concat_length] at h
    cases h
    exact Or.inl ⟨rfl, rfl⟩

theorem GetOrCompute_hit (b : Bus) (et : EventType) (T : Kind) (o : Nat)
    (h : Map.Get b.groups et = some o) : b.GetOrCompute et T = (o, b) := by
  simp [Bus.GetOrCompute, h]

theorem GetOrCompute_miss (b : Bus) (et : EventType) (T : Kind)
    (h : Map.Get b.groups et = none) :
    b.GetOrCompute et T =
      (b.gmem.length,
        { b with groups := b.groups ++ [(et, b.gmem.length)], gmem := b.gmem ++ [newGroup T] }) := by
  simp [Bus.GetOrCompute, h]

theorem Inv.bound (b : Bus) (hinv : Inv b) (et : EventType) (o : Nat)
    (h : Map.Get b.groups et = some o) : ∃ g, b.gmem[o]? = some g := by
  have h1 : o ∈ b.groups.map Prod.snd := List.mem_map_of_mem Prod.snd (Get_some_mem _ _ _ h)
  rw [hinv.ptrs, List.mem_range] at h1
  exact ⟨b.gmem[o], List.getElem?_eq_getElem h1⟩

theorem Inv.sub_lt (b : Bus) (hinv : Inv b) (gp : Nat) (g : group) (sub : Nat)
    (h1 : b.gmem[gp]? = some g) (h2 : sub ∈ g.subs) : sub < b.smem.length := by
  obtain ⟨s, hs, _⟩ := hinv.subs_live gp g sub h1 h2
  exact lt_of_getElem? _ _ _ hs

theorem Inv_New : Inv New := by
  refine ⟨by simp [New], by simp [New], ?_, ?_, ?_, ?_, ?_⟩ <;> simp [New]

theorem Inv_alloc (b : Bus) (hinv : Inv b) (et : EventType) (T : Kind)
    (h : Map.Get b.groups et = none) :
    Inv { b with groups := b.groups ++ [(et, b.gmem.length)], gmem := b.gmem ++ [newGroup T] } := by
  refine ⟨?_, ?_, ?_, ?_, ?_, hinv.closed_stopped, ?_⟩
  · have h1 := (Get_none _ _).mp h
    simp only [List.map_append, List.map_cons, List.map_nil]
    exact List.Nodup.append hinv.keys_nodup (List.nodup_singleton _)
      (List.disjoint_singleton.mpr (by simpa using h1))
  · simp only [List.map_append, List.map_cons, List.map_nil, List.length_append,
      List.length_singleton, List.range_succ, hinv.ptrs]
  · intro gp g hg
    rcases get_concat_cases _ _ _ _ hg with ⟨_, rfl⟩ | ⟨_, hg⟩
    · simp [newGroup]
    · exact hinv.subs_nodup gp g hg
  · intro gp g sub hg hsub
    rcases get_concat_cases _ _ _ _ hg with ⟨_, rfl⟩ | ⟨_, hg⟩
    · simp [newGroup] at hsub
    · exact hinv.subs_live gp g sub hg hsub
  · intro gp1 gp2 g1 g2 sub hg1 hg2 hs1 hs2
    rcases get_concat_cases _ _ _ _ hg1 with ⟨_, rfl⟩ | ⟨_, hg1⟩
    · simp [newGroup] at hs1
    · rcases get_concat_cases _ _ _ _ hg2 with ⟨_, rfl⟩ | ⟨_, hg2⟩
      · simp [newGroup] at hs2
      · exact hinv.subs_disj gp1 gp2 g1 g2 sub hg1 hg2 hs1 hs2
  · intro gp g hg
    rcases get_concat_cases _ _ _ _ hg with ⟨_, rfl⟩ | ⟨_, hg⟩
    · rfl
    · exact hinv.locks_free gp g hg

theorem Inv_GetOrCompute (b : Bus) (hinv : Inv b) (et : EventType) (T : Kind) :
    Inv (b.GetOrCompute et T).2 ∧ (b.GetOrCompute et T).2.smem = b.smem ∧
      ∃ g, (b.GetOrCompute et T).2.gmem[(b.GetOrCompute et T).1]? = some g := by
  cases h : Map.Get b.groups et with
  | some o =>
    rw [GetOrCompute_hit b et T o h]
    exact ⟨hinv, rfl, hinv.bound b et o h⟩
  | none =>
    rw [GetOrCompute_miss b et T h]
    exact ⟨Inv_alloc b hinv et T h, rfl, newGroup T, List.getElem?_concat_length _ _⟩

theorem SubscribeTo_eq (lim : Kind → Nat) (b : Bus) (T : Kind) (qsize : Int) (et : EventType)
    (g : group) (hg : (b.GetOrCompute et T).2.gmem[(b.GetOrCompute et T).1]? = some g)
    (hfree : g.m = {}) :
    SubscribeTo lim b T qsize et =
      if g.kind = T then
        if qsize < 0 ∨ (lim T : Int) < qsize then Outcome.panicked (b.GetOrCompute et T).2
        else Outcome.ok
          { (b.GetOrCompute et T).2 with
            gmem := (b.GetOrCompute et T).2.gmem.set (b.GetOrCompute et T).1
              { g with subs := g.subs ++ [(b.GetOrCompute et T).2.smem.length] }
            smem := (b.GetOrCompute et T).2.smem ++
              [{ queue := [], cap := qsize.toNat, closed := false, done := false, handled := [] }] }
          { g := (b.GetOrCompute et T).1, s := (b.GetOrCompute et T).2.smem.length }
      else Outcome.panicked (b.GetOrCompute et T).2 := by
  have hl : g.m.canLock = true := by rw [hfree]; rfl
  simp only [SubscribeTo, hg]
  by_cases hk : g.kind = T
  · by_cases hq : qsize < 0 ∨ (lim T : Int) < qsize
    · simp [hk, hq, group.add, newConsumer]
    · simp [hk, hq, group.add, newConsumer, hl]
  · simp [hk]

theorem Inv_add (b : Bus) (hinv : Inv b) (o : Nat) (g : group) (c : subscriber)
    (hg : b.gmem[o]? = some g) (hc : c.Running) :
    Inv { b with
          gmem := b.gmem.set o { g with subs := g.subs ++ [b.smem.length] }
          smem := b.smem ++ [c] } := by
  have hfresh : ∀ (gp : Nat) (g1 : group), b.gmem[gp]? = some g1 → b.smem.length ∉ g1.subs := by
    intro gp g1 h1 h2
    exact absurd (hinv.sub_lt b gp g1 _ h1 h2) (Nat.lt_irrefl _)
  have hold : ∀ (sub : Nat) (s : subscriber), b.smem[sub]? = some s →
      (b.smem ++ [c])[sub]? = some s := by
    intro sub s hs
    rw [List.getElem?_append_left (lt_of_getElem? _ _ _ hs)]
    exact hs
  refine ⟨hinv.keys_nodup, ?_, ?_, ?_, ?_, ?_, ?_⟩
  · simpa using hinv.ptrs
  · intro gp g1 h1
    rcases get_set_cases _ _ _ _ _ h1 with ⟨_, rfl⟩ | ⟨_, h1⟩
    · exact List.Nodup.append (hinv.subs_nodup o g hg) (List.nodup_singleton _)
        (List.disjoint_singleton.mpr (hfresh o g hg))
    · exact hinv.subs_nodup gp g1 h1
  · intro gp g1 sub h1 h2
    have key : sub = b.smem.length ∨ ∃ s : subscriber, b.smem[sub]? = some s ∧ s.Running := by
      rcases get_set_cases _ _ _ _ _ h1 with ⟨_, rfl⟩ | ⟨_, h1⟩
      · rcases List.mem_append.mp h2 with h2 | h2
        · exact Or.inr (hinv.subs_live o g sub hg h2)
        · exact Or.inl (by simpa using h2)
      · exact Or.inr (hinv.subs_live gp g1 sub h1 h2)
    rcases key with rfl | ⟨s, hs, hr⟩
    · exact ⟨c, List.getElem?_concat_length _ _, hc⟩
    · exact ⟨s, hold sub s hs, hr⟩
  · intro gp1 gp2 g1 g2 sub h1 h2 hs1 hs2
    rcases get_set_cases _ _ _ _ _ h1 with ⟨e1, rfl⟩ | ⟨n1, h1⟩
    · rcases get_set_cases _ _ _ _ _ h2 with ⟨e2, rfl⟩ | ⟨n2, h2⟩
      · rw [e1, e2]
      · rcases List.mem_append.mp hs1 with hs1 | hs1
        · rw [e1]; exact hinv.subs_disj o gp2 g g2 sub hg h2 hs1 hs2
        · have : sub = b.smem.length := by simpa using hs1
          exact absurd (this ▸ hs2) (hfresh gp2 g2 h2)
    · rcases get_set_cases _ _ _ _ _ h2 with ⟨e2, rfl⟩ | ⟨n2, h2⟩
      · rcases List.mem_append.mp hs2 with hs2 | hs2
        · rw [e2]; exact hinv.subs_disj gp1 o g1 g sub h1 hg hs1 hs2
        · have : sub = b.smem.length := by simpa using hs2
          exact absurd (this ▸ hs1) (hfresh gp1 g1 h1)
      · exact hinv.subs_disj gp1 gp2 g1 g2 sub h1 h2 hs1 hs2
  · intro sub s hs hcl
    rcases get_concat_cases _ _ _ _ hs with ⟨_, rfl⟩ | ⟨_, hs⟩
    · rw [hc.1] at hcl; cases hcl
    · exact hinv.closed_stopped sub s hs hcl
  · intro gp g1 h1
    rcases get_set_cases _ _ _ _ _ h1 with ⟨_, rfl⟩ | ⟨_, h1⟩
    · exact hinv.locks_free o g hg
    · exact hinv.locks_free gp g1 h1

/-! ## The invariant holds in every reachable state -/

theorem Inv_SubscribeTo {lim : Kind → Nat} (b : Bus) (hinv : Inv b) (T : Kind) (qsize : Int) (et : EventType) :
    Inv (SubscribeTo lim b T qsize et).state := by
  obtain ⟨h1, _, g, hg⟩ := Inv_GetOrCompute b hinv et T
  rw [SubscribeTo_eq lim b T qsize et g hg (h1.locks_free _ g hg)]
  by_cases hk : g.kind = T
  · by_cases hq : qsize < 0 ∨ (lim T : Int) < qsize
    · simpa [hk, hq, Outcome.state] using h1
    · rw [if_pos hk, if_neg hq]
      exact Inv_add _ h1 _ g
        { queue := [], cap := qsize.toNat, closed := false, done := false, handled := [] } hg
        ⟨rfl, rfl, Nat.zero_le _, rfl⟩
  · simpa [hk, Outcome.state] using h1

theorem Inv_Emit (b : Bus) (hinv : Inv b) (ev : Event) : Inv (Emit b ev).state := by
  rcases Emit_cases b ev with h | ⟨o, g, h1, h2, h3⟩
  · rw [Emit_miss b ev h]; exact hinv
  · obtain ⟨mem1, he, _, hout, hin⟩ := Emit_hit b ev hinv o g h1 h2 h3
    rw [he]
    refine ⟨hinv.keys_nodup, hinv.ptrs, hinv.subs_nodup, ?_, hinv.subs_disj, ?_, hinv.locks_free⟩
    · intro gp g1 sub hg1 hsub
      obtain ⟨s, hs, hr⟩ := hinv.subs_live gp g1 sub hg1 hsub
      by_cases hm : sub ∈ g.subs
      · obtain ⟨s1, hsend, hs1⟩ := hin sub hm s hs
        exact ⟨s1, hs1, (send_running_keeps s s1 ev hr hsend).1⟩
      · exact ⟨s, (hout sub hm).trans hs, hr⟩
    · intro sub s hs hcl
      by_cases hm : sub ∈ g.subs
      · obtain ⟨s0, hs0, hr⟩ := hinv.subs_live o g sub h2 hm
        obtain ⟨s1, hsend, hs1⟩ := hin sub hm s0 hs0
        have e : s1 = s := Option.some.inj (hs1.symm.trans hs)
        subst e
        rw [(send_running_keeps s0 s1 ev hr hsend).1.1] at hcl
        cases hcl
      · exact hinv.closed_stopped sub s ((hout sub hm).symm.trans hs) hcl

theorem Inv_pop (b : Bus) (hinv : Inv b) (f : StopFn) (g : group) (i : Nat) (s1 : subscriber)
    (hg : b.gmem[f.g]? = some g) (hi : Index g.subs f.s = some i) (hs1 : s1.Stopped) :
    Inv { b with
          gmem := b.gmem.set f.g { g with subs := swapRemove g.subs i }
          smem := b.smem.set f.s s1 } := by
  have hn := hinv.subs_nodup f.g g hg
  have hmem : ∀ y, y ∈ swapRemove g.subs i ↔ y ∈ g.subs ∧ y ≠ f.s :=
    fun y => swapRemove_mem g.subs f.s i y hi hn
  have hfs : f.s ∈ g.subs := by
    by_contra hc
    rw [(Index_none _ _).mpr hc] at hi
    cases hi
  -- membership in a group after the pop implies membership before, and not being `f.s`
  have hback : ∀ (gp : Nat) (g1 : group) (sub : Nat),
      (b.gmem.set f.g { g with subs := swapRemove g.subs i })[gp]? = some g1 → sub ∈ g1.subs →
      ∃ g0, b.gmem[gp]? = some g0 ∧ sub ∈ g0.subs ∧ sub ≠ f.s := by
    intro gp g1 sub h1 h2
    rcases get_set_cases _ _ _ _ _ h1 with ⟨e, rfl⟩ | ⟨n, h1⟩
    · exact ⟨g, e ▸ hg, ((hmem sub).mp h2).1, ((hmem sub).mp h2).2⟩
    · refine ⟨g1, h1, h2, ?_⟩
      rintro rfl
      exact n (hinv.subs_disj gp f.g g1 g _ h1 hg h2 hfs)
  refine ⟨hinv.keys_nodup, ?_, ?_, ?_, ?_, ?_, ?_⟩
  · simpa using hinv.ptrs
  · intro gp g1 h1
    rcases get_set_cases _ _ _ _ _ h1 with ⟨_, rfl⟩ | ⟨_, h1⟩
    · exact swapRemove_nodup g.subs f.s i hi hn
    · exact hinv.subs_nodup gp g1 h1
  · intro gp g1 sub h1 h2
    obtain ⟨g0, h3, h4, h5⟩ := hback gp g1 sub h1 h2
    obtain ⟨s, hs, hr⟩ := hinv.subs_live gp g0 sub h3 h4
    refine ⟨s, ?_, hr⟩
    show (b.smem.set f.s s1)[sub]? = some s
    rw [List.getElem?_set_ne (fun h => h5 h.symm)]
    exact hs
  · intro gp1 gp2 g1 g2 sub h1 h2 hs1' hs2'
    obtain ⟨g01, h3, h4, _⟩ := hback gp1 g1 sub h1 hs1'
    obtain ⟨g02, h5, h6, _⟩ := hback gp2 g2 sub h2 hs2'
    exact hinv.subs_disj gp1 gp2 g01 g02 sub h3 h5 h4 h6
  · intro sub s hs hcl
    rcases get_set_cases _ _ _ _ _ hs with ⟨_, rfl⟩ | ⟨_, hs⟩
    · exact hs1
    · exact hinv.closed_stopped sub s hs hcl
  · intro gp g1 h1
    rcases get_set_cases _ _ _ _ _ h1 with ⟨_, rfl⟩ | ⟨_, h1⟩
    · exact hinv.locks_free f.g g hg
    · exact hinv.locks_free gp g1 h1

theorem Inv_call (b : Bus) (hinv : Inv b) (f : StopFn) : Inv (f.call b).state := by
  cases hg : b.gmem[f.g]? with
  | none => rw [call_dangling f b hg]; exact hinv
  | some g =>
    by_cases hm : f.s ∈ g.subs
    · obtain ⟨i, s, hi, _, _, hc⟩ := call_present f b hinv g hg hm
      rw [hc]
      exact Inv_pop b hinv f g i _ hg hi ⟨rfl, rfl, rfl⟩
    · rw [call_absent f b g hg hm (hinv.locks_free _ _ hg)]; exact hinv

theorem Inv_listen (b : Bus) (hinv : Inv b) (sub : Nat) : Inv (b.listen sub) := by
  cases hs : b.smem[sub]? with
  | none => simpa [Bus.listen, hs] using hinv
  | some s =>
    simp only [Bus.listen, hs]
    refine ⟨hinv.keys_nodup, hinv.ptrs, hinv.subs_nodup, ?_, hinv.subs_disj, ?_, hinv.locks_free⟩
    · intro gp g x hg hx
      obtain ⟨t, ht, hr⟩ := hinv.subs_live gp g x hg hx
      by_cases hxs : sub = x
      · subst hxs
        rw [hs] at ht
        cases ht
        exact ⟨s.listenStep, List.getElem?_set_self (lt_of_getElem? _ _ _ hs),
          (listenStep_running s hr).1⟩
      · exact ⟨t, by show (b.smem.set sub s.listenStep)[x]? = some t
                     rw [List.getElem?_set_ne hxs]; exact ht, hr⟩
    · intro x t ht hcl
      rcases get_set_cases _ _ _ _ _ ht with ⟨rfl, rfl⟩ | ⟨_, ht⟩
      · by_cases hc : s.closed = true
        · have hst := hinv.closed_stopped x s hs hc
          rw [listenStep_stopped s hst]
          exact hst
        · have hc2 : s.closed = false := by simpa using hc
          rw [listenStep_closed, hc2] at hcl
          cases hcl
      · exact hinv.closed_stopped x t ht hcl

theorem Inv_step {lim : Kind → Nat} (b : Bus) (hinv : Inv b) (a : Action) : Inv (step lim b a) := by
  cases a with
  | subscribe T qsize et => exact Inv_SubscribeTo b hinv T qsize et
  | emit ev => exact Inv_Emit b hinv ev
  | stop f => exact Inv_call b hinv f
  | listen sub => exact Inv_listen b hinv sub

theorem Inv_run {lim : Kind → Nat} (acts : List Action) (b : Bus) (hinv : Inv b) : Inv (run lim acts b) := by
  induction acts generalizing b with
  | nil => exact hinv
  | cons a rest ih => exact ih (step lim b a) (Inv_step b hinv a)

theorem Reachable.inv {lim : Kind → Nat} {b : Bus} (h : Reachable lim b) : Inv b := by
  obtain ⟨acts, rfl⟩ := h
  exact Inv_run acts New Inv_New

theorem run_append {lim : Kind → Nat} (acts1 acts2 : List Action) (b : Bus) :
    run lim (acts1 ++ acts2) b = run lim acts2 (run lim acts1 b) := by
  induction acts1 generalizing b with
  | nil => rfl
  | cons a rest ih => exact ih (step lim b a)

theorem Reachable.run {lim : Kind → Nat} {b : Bus} (h : Reachable lim b) (acts : List Action) :
    Reachable lim (run lim acts b) := by
  obtain ⟨acts0, rfl⟩ := h
  exact ⟨acts0 ++ acts, run_append acts0 acts New⟩

/-! ## What a step leaves alone -/

theorem GetOrCompute_frame (b : Bus) (et : EventType) (T : Kind) :
    (b.GetOrCompute et T).2.smem = b.smem ∧
    (∀ (gp : Nat) (g : group), b.gmem[gp]? = some g →
      (b.GetOrCompute et T).2.gmem[gp]? = some g) ∧
    (∀ (k : EventType) (o : Nat), Map.Get b.groups k = some o →
      Map.Get (b.GetOrCompute et T).2.groups k = some o) := by
  cases h : Map.Get b.groups et with
  | some o =>
    rw [GetOrCompute_hit b et T o h]
    exact ⟨rfl, fun _ _ h => h, fun _ _ h => h⟩
  | none =>
    rw [GetOrCompute_miss b et T h]
    refine ⟨rfl, ?_, ?_⟩
    · intro gp g hg
      show (b.gmem ++ [newGroup T])[gp]? = some g
      rw [List.getElem?_append_left (lt_of_getElem? _ _ _ hg)]
      exact hg
    · intro k o hk
      show Map.Get (b.groups ++ [(et, b.gmem.length)]) k = some o
      rw [Get_append, hk]

theorem SubscribeTo_cases (lim : Kind → Nat) (b : Bus) (hinv : Inv b) (T : Kind) (qsize : Int) (et : EventType) :
    ∃ g, (b.GetOrCompute et T).2.gmem[(b.GetOrCompute et T).1]? = some g ∧
      ((SubscribeTo lim b T qsize et = Outcome.panicked (b.GetOrCompute et T).2 ∧
          (g.kind ≠ T ∨ qsize < 0 ∨ (lim T : Int) < qsize)) ∨
        (g.kind = T ∧ (0 ≤ qsize ∧ qsize ≤ (lim T : Int)) ∧
          SubscribeTo lim b T qsize et = Outcome.ok
            { (b.GetOrCompute et T).2 with
              gmem := (b.GetOrCompute et T).2.gmem.set (b.GetOrCompute et T).1
                { g with subs := g.subs ++ [(b.GetOrCompute et T).2.smem.length] }
              smem := (b.GetOrCompute et T).2.smem ++
                [{ queue := [], cap := qsize.toNat, closed := false, done := false,
                   handled := [] }] }
            { g := (b.GetOrCompute et T).1, s := (b.GetOrCompute et T).2.smem.length })) := by
  obtain ⟨hi1, _, g, hg⟩ := Inv_GetOrCompute b hinv et T
  refine ⟨g, hg, ?_⟩
  rw [SubscribeTo_eq lim b T qsize et g hg (hi1.locks_free _ g hg)]
  by_cases hk : g.kind = T
  · by_cases hq : qsize < 0 ∨ (lim T : Int) < qsize
    · exact Or.inl ⟨by rw [if_pos hk, if_pos hq], Or.inr hq⟩
    · exact Or.inr ⟨hk, by omega, by rw [if_pos hk, if_neg hq]⟩
  · exact Or.inl ⟨by rw [if_neg hk], Or.inl hk⟩

/-- A step never touches a stopped subscriber: its record, and with it the log of
handler invocations, stays as it is. -/
theorem step_stopped (lim : Kind → Nat) (b : Bus) (hinv : Inv b) (a : Action) (sub : Nat) (s : subscriber)
    (hs : b.smem[sub]? = some s) (hst : s.Stopped) : (step lim b a).smem[sub]? = some s := by
  have hnot : ∀ (gp : Nat) (g : group), b.gmem[gp]? = some g → sub ∉ g.subs := by
    intro gp g hg hm
    obtain ⟨t, ht, hr⟩ := hinv.subs_live gp g sub hg hm
    have e : s = t := Option.some.inj (hs.symm.trans ht)
    subst e
    exact Bool.noConfusion (hr.1.symm.trans hst.1)
  cases a with
  | subscribe T qsize et =>
    obtain ⟨hsm, _, _⟩ := GetOrCompute_frame b et T
    obtain ⟨g, hg, ⟨he, _⟩ | ⟨_, _, he⟩⟩ := SubscribeTo_cases lim b hinv T qsize et
    · simp only [step, he, Outcome.state, hsm]; exact hs
    · simp only [step, he, Outcome.state, hsm]
      rw [List.getElem?_append_left (lt_of_getElem? _ _ _ hs)]
      exact hs
  | emit ev =>
    rcases Emit_cases b ev with h | ⟨o, g, h1, h2, h3⟩
    · simp only [step, Emit_miss b ev h]; exact hs
    · obtain ⟨mem1, he, _, hout, _⟩ := Emit_hit b ev hinv o g h1 h2 h3
      simp only [step, he, Outcome.state]
      rw [hout sub (hnot o g h2)]
      exact hs
  | stop f =>
    cases hg : b.gmem[f.g]? with
    | none => simp only [step, call_dangling f b hg, Outcome.state]; exact hs
    | some g =>
      by_cases hm : f.s ∈ g.subs
      · obtain ⟨i, t, _, _, _, hc⟩ := call_present f b hinv g hg hm
        simp only [step, hc, Outcome.state]
        have hne : f.s ≠ sub := fun h => hnot f.g g hg (h ▸ hm)
        rw [List.getElem?_set_ne hne]
        exact hs
      · simp only [step, call_absent f b g hg hm (hinv.locks_free _ _ hg), Outcome.state]; exact hs
  | listen x =>
    simp only [step, Bus.listen]
    cases hx : b.smem[x]? with
    | none => exact hs
    | some t =>
      by_cases hxs : x = sub
      · subst hxs
        rw [hs] at hx
        cases hx
        simp only [listenStep_stopped s hst]
        rw [List.getElem?_set_self (lt_of_getElem? _ _ _ hs)]
      · simp only
        rw [List.getElem?_set_ne hxs]
        exact hs

theorem run_stopped (lim : Kind → Nat) (acts : List Action) (b : Bus) (hinv : Inv b) (sub : Nat) (s : subscriber)
    (hs : b.smem[sub]? = some s) (hst : s.Stopped) : (run lim acts b).smem[sub]? = some s := by
  induction acts generalizing b with
  | nil => exact hs
  | cons a rest ih =>
    exact ih (step lim b a) (Inv_step b hinv a) (step_stopped lim b hinv a sub s hs hst)

/-- A handle `f` is sound in `b` when its group exists and its subscriber is either
still registered there or stopped. -/
theorem step_handle (lim : Kind → Nat) (b : Bus) (hinv : Inv b) (a : Action) (f : StopFn)
    (h : ∃ g, b.gmem[f.g]? = some g ∧
      (f.s ∈ g.subs ∨ ∃ s : subscriber, b.smem[f.s]? = some s ∧ s.Stopped)) :
    ∃ g, (step lim b a).gmem[f.g]? = some g ∧
      (f.s ∈ g.subs ∨ ∃ s : subscriber, (step lim b a).smem[f.s]? = some s ∧ s.Stopped) := by
  obtain ⟨g, hg, hor⟩ := h
  have hlt : f.g < b.gmem.length := lt_of_getElem? _ _ _ hg
  cases a with
  | subscribe T qsize et =>
    obtain ⟨hsm, hgm, _⟩ := GetOrCompute_frame b et T
    obtain ⟨g0, hg0, ⟨he, _⟩ | ⟨_, _, he⟩⟩ := SubscribeTo_cases lim b hinv T qsize et
    · simp only [step, he, Outcome.state, hsm]
      exact ⟨g, hgm _ _ hg, hor⟩
    · have hst : ∀ (s : subscriber) {c : subscriber}, b.smem[f.s]? = some s →
          (b.smem ++ [c])[f.s]? = some s := by
        intro s c hs
        rw [List.getElem?_append_left (lt_of_getElem? _ _ _ hs)]
        exact hs
      simp only [step, he, Outcome.state, hsm]
      by_cases ho : (b.GetOrCompute et T).1 = f.g
      · rw [ho] at hg0 ⊢
        have e : g0 = g := Option.some.inj (hg0.symm.trans (hgm _ _ hg))
        subst e
        refine ⟨_, List.getElem?_set_self (lt_of_getElem? _ _ _ hg0), ?_⟩
        rcases hor with hm | ⟨s, hs, hst'⟩
        · exact Or.inl (List.mem_append_left _ hm)
        · exact Or.inr ⟨s, hst s hs, hst'⟩
      · refine ⟨g, by rw [List.getElem?_set_ne ho]; exact hgm _ _ hg, ?_⟩
        rcases hor with hm | ⟨s, hs, hst'⟩
        · exact Or.inl hm
        · exact Or.inr ⟨s, hst s hs, hst'⟩
  | emit ev =>
    rcases hor with hm | ⟨s, hs, hst⟩
    · rcases Emit_cases b ev with h | ⟨o, g1, h1, h2, h3⟩
      · simp only [step, Emit_miss b ev h]; exact ⟨g, hg, Or.inl hm⟩
      · obtain ⟨mem1, he, _, _, _⟩ := Emit_hit b ev hinv o g1 h1 h2 h3
        simp only [step, he, Outcome.state]
        exact ⟨g, hg, Or.inl hm⟩
    · have h2 := step_stopped lim b hinv (Action.emit ev) f.s s hs hst
      have h3 : (step lim b (Action.emit ev)).gmem = b.gmem := by
        rcases Emit_cases b ev with h | ⟨o, g1, h1, h2, h3⟩
        · simp only [step, Emit_miss b ev h]
        · obtain ⟨mem1, he, _, _, _⟩ := Emit_hit b ev hinv o g1 h1 h2 h3
          simp only [step, he, Outcome.state]
      rw [h3]
      exact ⟨g, hg, Or.inr ⟨s, h2, hst⟩⟩
  | stop f1 =>
    cases hg1 : b.gmem[f1.g]? with
    | none =>
      simp only [step, call_dangling f1 b hg1, Outcome.state]
      exact ⟨g, hg, hor⟩
    | some g1 =>
      by_cases hm1 : f1.s ∈ g1.subs
      · obtain ⟨i, t, hi, ht, _, hc⟩ := call_present f1 b hinv g1 hg1 hm1
        simp only [step, hc, Outcome.state]
        by_cases hs : f1.s = f.s
        · -- the subscriber of `f` is the one being stopped
          have hstop : ∃ s : subscriber, (b.smem.set f1.s
              { queue := [], cap := t.cap, closed := true, done := true,
                handled := t.handled ++ t.queue })[f.s]? = some s ∧ s.Stopped := by
            rw [← hs]
            exact ⟨_, List.getElem?_set_self (lt_of_getElem? _ _ _ ht), rfl, rfl, rfl⟩
          by_cases hgg : f1.g = f.g
          · rw [hgg]
            exact ⟨_, List.getElem?_set_self hlt, Or.inr hstop⟩
          · exact ⟨g, by rw [List.getElem?_set_ne hgg]; exact hg, Or.inr hstop⟩
        · have hkeep : ∀ s : subscriber, b.smem[f.s]? = some s →
              (b.smem.set f1.s
                { queue := [], cap := t.cap, closed := true, done := true,
                  handled := t.handled ++ t.queue })[f.s]? = some s := by
            intro s hs2
            rw [List.getElem?_set_ne hs]
            exact hs2
          by_cases hgg : f1.g = f.g
          · rw [hgg] at hg1 ⊢
            have e : g1 = g := Option.some.inj (hg1.symm.trans hg)
            subst e
            refine ⟨_, List.getElem?_set_self hlt, ?_⟩
            rcases hor with hm | ⟨s, hs2, hst⟩
            · exact Or.inl ((swapRemove_mem g1.subs f1.s i f.s hi
                (hinv.subs_nodup f.g g1 hg)).mpr ⟨hm, fun h => hs h.symm⟩)
            · exact Or.inr ⟨s, hkeep s hs2, hst⟩
          · refine ⟨g, by rw [List.getElem?_set_ne hgg]; exact hg, ?_⟩
            rcases hor with hm | ⟨s, hs2, hst⟩
            · exact Or.inl hm
            · exact Or.inr ⟨s, hkeep s hs2, hst⟩
      · simp only [step, call_absent f1 b g1 hg1 hm1 (hinv.locks_free _ _ hg1), Outcome.state]
        exact ⟨g, hg, hor⟩
  | listen x =>
    rcases hor with hm | ⟨s, hs, hst⟩
    · refine ⟨g, ?_, Or.inl hm⟩
      simp only [step, Bus.listen]
      split <;> exact hg
    · have h2 := step_stopped lim b hinv (Action.listen x) f.s s hs hst
      refine ⟨g, ?_, Or.inr ⟨s, h2, hst⟩⟩
      simp only [step, Bus.listen]
      split <;> exact hg

theorem run_handle (lim : Kind → Nat) (acts : List Action) (b : Bus) (hinv : Inv b) (f : StopFn)
    (h : ∃ g, b.gmem[f.g]? = some g ∧
      (f.s ∈ g.subs ∨ ∃ s : subscriber, b.smem[f.s]? = some s ∧ s.Stopped)) :
    ∃ g, (run lim acts b).gmem[f.g]? = some g ∧
      (f.s ∈ g.subs ∨ ∃ s : subscriber, (run lim acts b).smem[f.s]? = some s ∧ s.Stopped) := by
  induction acts generalizing b with
  | nil => exact h
  | cons a rest ih => exact ih (step lim b a) (Inv_step b hinv a) (step_handle lim b hinv a f h)

theorem GetOrCompute_bound (b : Bus) (et : EventType) (T : Kind) :
    Map.Get (b.GetOrCompute et T).2.groups et = some (b.GetOrCompute et T).1 := by
  cases h : Map.Get b.groups et with
  | some o => rw [GetOrCompute_hit b et T o h]; exact h
  | none =>
    rw [GetOrCompute_miss b et T h]
    show Map.Get (b.groups ++ [(et, b.gmem.length)]) et = some b.gmem.length
    rw [Get_append, h]
    simp

/-- What a successful `SubscribeTo` establishes. -/
theorem SubscribeTo_ok {lim : Kind → Nat} (b : Bus) (hinv : Inv b) (T : Kind) (n : Int) (k : EventType)
    (b1 : Bus) (f : StopFn) (h : SubscribeTo lim b T n k = Outcome.ok b1 f) :
    Inv b1 ∧ Map.Get b1.groups k = some f.g ∧ f.s = b.smem.length ∧ 0 ≤ n ∧
      b1.smem[f.s]? =
        some { queue := [], cap := n.toNat, closed := false, done := false, handled := [] } ∧
      ∃ g, b1.gmem[f.g]? = some g ∧ g.kind = T ∧ f.s ∈ g.subs := by
  have hi : Inv (SubscribeTo lim b T n k).state := Inv_SubscribeTo b hinv T n k
  rw [h] at hi
  obtain ⟨hsm, _, _⟩ := GetOrCompute_frame b k T
  obtain ⟨g, hg, ⟨he, _⟩ | ⟨hk, hn, he⟩⟩ := SubscribeTo_cases lim b hinv T n k
  · rw [he] at h; cases h
  · rw [he] at h
    injection h with h1 h2
    subst h1 h2
    refine ⟨hi, GetOrCompute_bound b k T, hsm ▸ rfl, hn.1, ?_, ?_⟩
    · exact List.getElem?_concat_length _ _
    · exact ⟨_, List.getElem?_set_self (lt_of_getElem? _ _ _ hg), hk, by simp⟩

/-- A binding of a key to a group, and the kind of that group, survive every step. -/
theorem step_bound (lim : Kind → Nat) (b : Bus) (hinv : Inv b) (a : Action) (k : EventType) (o : Nat) (g : group)
    (hk : Map.Get b.groups k = some o) (hg : b.gmem[o]? = some g) :
    Map.Get (step lim b a).groups k = some o ∧
      ∃ g1, (step lim b a).gmem[o]? = some g1 ∧ g1.kind = g.kind := by
  have hlt : o < b.gmem.length := lt_of_getElem? _ _ _ hg
  cases a with
  | subscribe T qsize et =>
    obtain ⟨_, hgm, hgr⟩ := GetOrCompute_frame b et T
    obtain ⟨g0, hg0, ⟨he, _⟩ | ⟨_, _, he⟩⟩ := SubscribeTo_cases lim b hinv T qsize et
    · simp only [step, he, Outcome.state]
      exact ⟨hgr k o hk, g, hgm o g hg, rfl⟩
    · simp only [step, he, Outcome.state]
      refine ⟨hgr k o hk, ?_⟩
      by_cases ho : (b.GetOrCompute et T).1 = o
      · rw [ho] at hg0 ⊢
        have e : g0 = g := Option.some.inj (hg0.symm.trans (hgm _ _ hg))
        subst e
        exact ⟨_, List.getElem?_set_self (lt_of_getElem? _ _ _ hg0), rfl⟩
      · exact ⟨g, by rw [List.getElem?_set_ne ho]; exact hgm _ _ hg, rfl⟩
  | emit ev =>
    rcases Emit_cases b ev with h | ⟨o1, g1, h1, h2, h3⟩
    · simp only [step, Emit_miss b ev h]; exact ⟨hk, g, hg, rfl⟩
    · obtain ⟨mem1, he, _, _, _⟩ := Emit_hit b ev hinv o1 g1 h1 h2 h3
      simp only [step, he, Outcome.state]
      exact ⟨hk, g, hg, rfl⟩
  | stop f =>
    cases hg1 : b.gmem[f.g]? with
    | none =>
      simp only [step, call_dangling f b hg1, Outcome.state]
      exact ⟨hk, g, hg, rfl⟩
    | some g1 =>
      by_cases hm1 : f.s ∈ g1.subs
      · obtain ⟨i, t, _, _, _, hc⟩ := call_present f b hinv g1 hg1 hm1
        simp only [step, hc, Outcome.state]
        refine ⟨hk, ?_⟩
        by_cases hgg : f.g = o
        · rw [hgg] at hg1 ⊢
          have e : g1 = g := Option.some.inj (hg1.symm.trans hg)
          subst e
          exact ⟨_, List.getElem?_set_self hlt, rfl⟩
        · exact ⟨g, by rw [List.getElem?_set_ne hgg]; exact hg, rfl⟩
      · simp only [step, call_absent f b g1 hg1 hm1 (hinv.locks_free _ _ hg1), Outcome.state]
        exact ⟨hk, g, hg, rfl⟩
  | listen x =>
    simp only [step, Bus.listen]
    split
    · exact ⟨hk, g, hg, rfl⟩
    · exact ⟨hk, g, hg, rfl⟩

theorem run_bound (lim : Kind → Nat) (acts : List Action) (b : Bus) (hinv : Inv b) (k : EventType) (o : Nat)
    (g : group) (hk : Map.Get b.groups k = some o) (hg : b.gmem[o]? = some g) :
    Map.Get (run lim acts b).groups k = some o ∧
      ∃ g1, (run lim acts b).gmem[o]? = some g1 ∧ g1.kind = g.kind := by
  induction acts generalizing b g with
  | nil => exact ⟨hk, g, hg, rfl⟩
  | cons a rest ih =>
    obtain ⟨h1, g1, h2, h3⟩ := step_bound lim b hinv a k o g hk hg
    obtain ⟨h4, g2, h5, h6⟩ := ih (step lim b a) (Inv_step b hinv a) g1 h1 h2
    exact ⟨h4, g2, h5, h6.trans h3⟩

/-! ## The claims -/

/-- C1: in every bus in which the key `k` is bound to a group `g` (bindings are made
only by `SubscribeTo`, which binds `k` to a group of its own kind `A`), for every kind
`B` different from the kind of `g`, `SubscribeTo[B]` with `k` and any buffer size
panics and registers nothing, and `Emit[B]` of any event whose `Type()` is `k` panics
and enqueues nothing: in both cases the bus and its memory are exactly as before. -/
theorem C1_kind_mismatch_fails_fast (lim : Kind → Nat) (b : Bus) (k : EventType) (o : Nat) (g : group)
    (hk : Map.Get b.groups k = some o) (hg : b.gmem[o]? = some g)
    (B : Kind) (hne : B ≠ g.kind) (n : Int) :
    SubscribeTo lim b B n k = Outcome.panicked b ∧
      ∀ ev : Event, ev.type = k → ev.kind = B → Emit b ev = Outcome.panicked b := by
  have hne2 : ¬ g.kind = B := fun h => hne h.symm
  constructor
  · simp [SubscribeTo, GetOrCompute_hit b k B o hk, hg, hne2]
  · intro ev h1 h2
    subst h1 h2
    simp [Emit, hk, hg, hne2]

/-- A successful `SubscribeTo[A]` with key `k` binds `k` to a group of kind `A`, and
the binding and the kind stay whatever happens afterwards. -/
theorem SubscribeTo_binds {lim : Kind → Nat} (b : Bus) (hr : Reachable lim b) (A : Kind) (n : Int)
    (k : EventType) (b1 : Bus) (f : StopFn) (hsub : SubscribeTo lim b A n k = Outcome.ok b1 f)
    (acts : List Action) :
    Map.Get (run lim acts b1).groups k = some f.g ∧
      ∃ g, (run lim acts b1).gmem[f.g]? = some g ∧ g.kind = A := by
  obtain ⟨hi, hk, _, _, _, g, hg, hkind, _⟩ := SubscribeTo_ok b hr.inv A n k b1 f hsub
  obtain ⟨h1, g1, h2, h3⟩ := run_bound lim acts b1 hi k f.g g hk hg
  exact ⟨h1, g1, h2, h3.trans hkind⟩

theorem SubscribeTo_handle {lim : Kind → Nat} (b : Bus) (hinv : Inv b) (T : Kind) (n : Int) (k : EventType)
    (b1 : Bus) (f : StopFn) (h : SubscribeTo lim b T n k = Outcome.ok b1 f) (acts : List Action) :
    Inv (run lim acts b1) ∧ ∃ g, (run lim acts b1).gmem[f.g]? = some g ∧
      (f.s ∈ g.subs ∨ ∃ s : subscriber, (run lim acts b1).smem[f.s]? = some s ∧ s.Stopped) := by
  obtain ⟨hi, _, _, _, _, g, hg, _, hm⟩ := SubscribeTo_ok b hinv T n k b1 f h
  exact ⟨Inv_run acts b1 hi, run_handle lim acts b1 hi f ⟨g, hg, Or.inl hm⟩⟩

/-- The first call of a sound handle returns and leaves its subscriber stopped, with
the buffered events handed to the handler. -/
theorem call_sound (b : Bus) (hinv : Inv b) (f : StopFn)
    (h : ∃ g, b.gmem[f.g]? = some g ∧
      (f.s ∈ g.subs ∨ ∃ s : subscriber, b.smem[f.s]? = some s ∧ s.Stopped)) :
    ∃ b3 s2 s3, f.call b = Outcome.ok b3 () ∧ b.smem[f.s]? = some s2 ∧
      b3.smem[f.s]? = some s3 ∧ s3.Stopped ∧ s3.handled = s2.handled ++ s2.queue ∧
      ∃ g3, b3.gmem[f.g]? = some g3 ∧ f.s ∉ g3.subs := by
  obtain ⟨g, hg, hm | ⟨s, hs, hst⟩⟩ := h
  · obtain ⟨i, s, hi, hs, _, hc⟩ := call_present f b hinv g hg hm
    refine ⟨_, s, _, hc, hs, List.getElem?_set_self (lt_of_getElem? _ _ _ hs),
      ⟨rfl, rfl, rfl⟩, rfl, _, List.getElem?_set_self (lt_of_getElem? _ _ _ hg), ?_⟩
    intro hin
    exact ((swapRemove_mem g.subs f.s i f.s hi (hinv.subs_nodup f.g g hg)).mp hin).2 rfl
  · have hm : f.s ∉ g.subs := by
      intro hm
      obtain ⟨t, ht, hr⟩ := hinv.subs_live f.g g f.s hg hm
      have e : s = t := Option.some.inj (hs.symm.trans ht)
      subst e
      exact Bool.noConfusion (hr.1.symm.trans hst.1)
    exact ⟨b, s, s, call_absent f b g hg hm (hinv.locks_free _ _ hg), hs, hs, hst, by rw [hst.2.2]; simp, g, hg, hm⟩

/-- C2: let `f` be the `StopFn` returned by a successful `SubscribeTo` (`On` is the
instance with buffer size 1) on a reachable bus.  After any further activity, a call
of `f` returns normally; when it has returned the subscriber is Stopped (queue closed
and empty, listener exited) and every event that was in its buffer when the call began
has been handed to the handler, in order, after those handled before.  From then on no
sequence of later actions, in particular no sequence of later `Emit` calls of that
kind, changes the subscriber: its handler is never invoked again. -/
theorem C2_stop_completes (lim : Kind → Nat) (b : Bus) (hr : Reachable lim b) (T : Kind) (n : Int) (k : EventType)
    (b1 : Bus) (f : StopFn) (hsub : SubscribeTo lim b T n k = Outcome.ok b1 f)
    (acts : List Action) :
    ∃ b3 s2 s3, f.call (run lim acts b1) = Outcome.ok b3 () ∧
      (run lim acts b1).smem[f.s]? = some s2 ∧ b3.smem[f.s]? = some s3 ∧
      s3.Stopped ∧ s3.handled = s2.handled ++ s2.queue ∧
      ∀ later : List Action, (run lim later b3).smem[f.s]? = some s3 := by
  obtain ⟨hi, hh⟩ := SubscribeTo_handle b hr.inv T n k b1 f hsub acts
  obtain ⟨b3, s2, s3, hc, h2, h3, hst, hh2, _⟩ := call_sound (run lim acts b1) hi f hh
  refine ⟨b3, s2, s3, hc, h2, h3, hst, hh2, ?_⟩
  intro later
  have hi3 : Inv b3 := by
    have := Inv_call (run lim acts b1) hi f
    rw [hc] at this
    exact this
  exact run_stopped lim later b3 hi3 f.s s3 h3 hst

/-- With handlers that return and do not call the bus: let `f` be the `StopFn` returned
by a successful `SubscribeTo` (or `On`) on a reachable bus.  The first call of `f`,
after any activity, returns normally; and whatever happens afterwards, calling `f`
again returns normally and leaves the whole state unchanged. -/
theorem stop_twice_returns (lim : Kind → Nat) (b : Bus) (hr : Reachable lim b) (T : Kind) (n : Int) (k : EventType)
    (b1 : Bus) (f : StopFn) (hsub : SubscribeTo lim b T n k = Outcome.ok b1 f)
    (acts1 acts2 : List Action) :
    ∃ b3, f.call (run lim acts1 b1) = Outcome.ok b3 () ∧
      f.call (run lim acts2 b3) = Outcome.ok (run lim acts2 b3) () ∧
      f.call b3 = Outcome.ok b3 () := by
  obtain ⟨hi, hh⟩ := SubscribeTo_handle b hr.inv T n k b1 f hsub acts1
  obtain ⟨b3, s2, s3, hc, _, h3, hst, _, g3, hg3, hm3⟩ := call_sound (run lim acts1 b1) hi f hh
  have hi3 : Inv b3 := by
    have := Inv_call (run lim acts1 b1) hi f
    rw [hc] at this
    exact this
  have again : ∀ acts : List Action, f.call (run lim acts b3) = Outcome.ok (run lim acts b3) () := by
    intro acts
    have hs := run_stopped lim acts b3 hi3 f.s s3 h3 hst
    obtain ⟨g, hg, hor⟩ := run_handle lim acts b3 hi3 f ⟨g3, hg3, Or.inr ⟨s3, h3, hst⟩⟩
    have hm : f.s ∉ g.subs := by
      intro hm
      obtain ⟨t, ht, hrun⟩ := (Inv_run acts b3 hi3).subs_live f.g g f.s hg hm
      have e : s3 = t := Option.some.inj (hs.symm.trans ht)
      subst e
      exact Bool.noConfusion (hrun.1.symm.trans hst.1)
    exact call_absent f (run lim acts b3) g hg hm ((Inv_run acts b3 hi3).locks_free _ _ hg)
  exact ⟨b3, hc, again acts2, again []⟩

theorem emitted_cons (k : EventType) (T : Kind) (a : Action) (rest : List Action) :
    emitted k T (a :: rest) = emitted k T [a] ++ emitted k T rest := by
  cases a with
  | emit ev =>
    by_cases h : ev.type = k ∧ ev.kind = T
    · simp [emitted, h]
    · simp [emitted, h]
  | subscribe T1 q et => simp [emitted]
  | stop f => simp [emitted]
  | listen x => simp [emitted]

theorem Inv.ptrs_nodup (b : Bus) (hinv : Inv b) : (b.groups.map Prod.snd).Nodup := by
  rw [hinv.ptrs]
  exact List.nodup_range _

/-- One step seen from a subscriber that is registered and is not being stopped: it
stays registered, what it has accepted grows by the event of the step (if the step is
an `Emit` of its key and kind), and its handler log only grows. -/
theorem step_received (lim : Kind → Nat) (b : Bus) (hinv : Inv b) (a : Action) (k : EventType) (gp : Nat)
    (g : group) (sub : Nat) (s : subscriber)
    (hk : Map.Get b.groups k = some gp) (hg : b.gmem[gp]? = some g) (hm : sub ∈ g.subs)
    (hs : b.smem[sub]? = some s) (hns : a ≠ Action.stop { g := gp, s := sub }) :
    ∃ g1 s1, (step lim b a).gmem[gp]? = some g1 ∧ g1.kind = g.kind ∧ sub ∈ g1.subs ∧
      (step lim b a).smem[sub]? = some s1 ∧
      s1.received = s.received ++ emitted k g.kind [a] ∧
      ∃ l, s1.handled = s.handled ++ l := by
  have hlt : gp < b.gmem.length := lt_of_getElem? _ _ _ hg
  have hslt : sub < b.smem.length := lt_of_getElem? _ _ _ hs
  cases a with
  | subscribe T qsize et =>
    obtain ⟨hsm, hgm, _⟩ := GetOrCompute_frame b et T
    obtain ⟨g0, hg0, ⟨he, _⟩ | ⟨_, _, he⟩⟩ := SubscribeTo_cases lim b hinv T qsize et
    · simp only [step, he, Outcome.state, hsm]
      exact ⟨g, s, hgm _ _ hg, rfl, hm, hs, by simp [emitted], [], by simp⟩
    · simp only [step, he, Outcome.state, hsm]
      have hs2 : ∀ c : subscriber, (b.smem ++ [c])[sub]? = some s := by
        intro c
        rw [List.getElem?_append_left hslt]
        exact hs
      by_cases ho : (b.GetOrCompute et T).1 = gp
      · rw [ho] at hg0 ⊢
        have e : g0 = g := Option.some.inj (hg0.symm.trans (hgm _ _ hg))
        subst e
        exact ⟨_, s, List.getElem?_set_self (lt_of_getElem? _ _ _ hg0), rfl,
          List.mem_append_left _ hm, hs2 _, by simp [emitted], [], by simp⟩
      · exact ⟨g, s, by rw [List.getElem?_set_ne ho]; exact hgm _ _ hg, rfl, hm, hs2 _,
          by simp [emitted], [], by simp⟩
  | emit ev =>
    rcases Emit_cases b ev with h | ⟨o, g1, h1, h2, h3⟩
    · have hno : ¬ (ev.type = k ∧ ev.kind = g.kind) := by
        rintro ⟨e1, e2⟩
        subst e1
        rcases h with h | ⟨o, h1, h2 | ⟨g2, h2, h3⟩⟩
        · rw [hk] at h; cases h
        · rw [hk] at h1; cases h1; rw [hg] at h2; cases h2
        · rw [hk] at h1; cases h1; rw [hg] at h2; cases h2; exact h3 e2.symm
      simp only [step, Emit_miss b ev h]
      exact ⟨g, s, hg, rfl, hm, hs, by simp [emitted, hno], [], by simp⟩
    · obtain ⟨mem1, he, _, hout, hin⟩ := Emit_hit b ev hinv o g1 h1 h2 h3
      simp only [step, he, Outcome.state]
      by_cases hek : ev.type = k
      · rw [hek, hk] at h1
        cases h1
        have e : g = g1 := Option.some.inj (hg.symm.trans h2)
        subst e
        obtain ⟨s1, hsend, hs1⟩ := hin sub hm s hs
        have hrun : s.Running := by
          obtain ⟨t, ht, hr⟩ := hinv.subs_live gp g sub hg hm
          rw [hs] at ht; cases ht; exact hr
        obtain ⟨t, ht, _, _, _, hrec, _, hl⟩ :=
          send_running s ev hrun.1 hrun.2.1 hrun.2.2.2
        have e : t = s1 := by
          rw [ht] at hsend
          injection hsend
        subst e
        exact ⟨g, t, hg, rfl, hm, hs1, by simp [emitted, hek, h3, hrec], hl⟩
      · have hog : o ≠ gp := by
          intro e
          subst e
          exact hek (Get_inj b.groups ev.type k o hinv.ptrs_nodup h1 hk)
        have hnm : sub ∉ g1.subs := fun hm1 =>
          hog (hinv.subs_disj o gp g1 g sub h2 hg hm1 hm)
        exact ⟨g, s, hg, rfl, hm, (hout sub hnm).trans hs, by simp [emitted, hek], [],
          by simp⟩
  | stop f =>
    cases hg1 : b.gmem[f.g]? with
    | none =>
      simp only [step, call_dangling f b hg1, Outcome.state]
      exact ⟨g, s, hg, rfl, hm, hs, by simp [emitted], [], by simp⟩
    | some g1 =>
      by_cases hm1 : f.s ∈ g1.subs
      · obtain ⟨i, t, hi, _, _, hc⟩ := call_present f b hinv g1 hg1 hm1
        simp only [step, hc, Outcome.state]
        have hne : f.s ≠ sub := by
          intro e
          have e2 : f.g = gp := hinv.subs_disj f.g gp g1 g sub hg1 hg (e ▸ hm1) hm
          apply hns
          obtain ⟨fg, fs⟩ := f
          simp only at e e2
          rw [e, e2]
        have hs2 : (b.smem.set f.s
            { queue := [], cap := t.cap, closed := true, done := true,
              handled := t.handled ++ t.queue })[sub]? = some s := by
          rw [List.getElem?_set_ne hne]
          exact hs
        by_cases hgg : f.g = gp
        · rw [hgg] at hg1 ⊢
          have e : g1 = g := Option.some.inj (hg1.symm.trans hg)
          subst e
          exact ⟨_, s, List.getElem?_set_self hlt, rfl,
            (swapRemove_mem g1.subs f.s i sub hi (hinv.subs_nodup gp g1 hg)).mpr
              ⟨hm, fun h => hne h.symm⟩,
            hs2, by simp [emitted], [], by simp⟩
        · exact ⟨g, s, by rw [List.getElem?_set_ne hgg]; exact hg, rfl, hm, hs2,
            by simp [emitted], [], by simp⟩
      · simp only [step, call_absent f b g1 hg1 hm1 (hinv.locks_free _ _ hg1), Outcome.state]
        exact ⟨g, s, hg, rfl, hm, hs, by simp [emitted], [], by simp⟩
  | listen x =>
    simp only [step, Bus.listen]
    cases hx : b.smem[x]? with
    | none => exact ⟨g, s, hg, rfl, hm, hs, by simp [emitted], [], by simp⟩
    | some t =>
      simp only
      by_cases hxs : x = sub
      · subst hxs
        have e : t = s := Option.some.inj (hx.symm.trans hs)
        subst e
        obtain ⟨u, hu, hr⟩ := hinv.subs_live gp g x hg hm
        have e : t = u := Option.some.inj (hs.symm.trans hu)
        subst e
        refine ⟨g, _, hg, rfl, hm, List.getElem?_set_self hslt, ?_, ?_⟩
        · simp [emitted, (listenStep_running t hr).2]
        · exact listenStep_handled t
      · exact ⟨g, s, hg, rfl, hm, by rw [List.getElem?_set_ne hxs]; exact hs,
          by simp [emitted], [], by simp⟩

theorem run_received (lim : Kind → Nat) (acts : List Action) (b : Bus) (hinv : Inv b) (k : EventType) (gp : Nat)
    (g : group) (sub : Nat) (s : subscriber)
    (hk : Map.Get b.groups k = some gp) (hg : b.gmem[gp]? = some g) (hm : sub ∈ g.subs)
    (hs : b.smem[sub]? = some s) (hns : Action.stop { g := gp, s := sub } ∉ acts) :
    ∃ g1 s1, (run lim acts b).gmem[gp]? = some g1 ∧ g1.kind = g.kind ∧ sub ∈ g1.subs ∧
      (run lim acts b).smem[sub]? = some s1 ∧
      s1.received = s.received ++ emitted k g.kind acts ∧
      ∃ l, s1.handled = s.handled ++ l := by
  induction acts generalizing b g s with
  | nil => exact ⟨g, s, hg, rfl, hm, hs, by simp [emitted], [], by simp⟩
  | cons a rest ih =>
    have hna : a ≠ Action.stop { g := gp, s := sub } := fun e =>
      hns (e ▸ List.mem_cons_self _ _)
    have hnr : Action.stop { g := gp, s := sub } ∉ rest := fun h =>
      hns (List.mem_cons_of_mem _ h)
    obtain ⟨g1, s1, h1, h2, h3, h4, h5, l1, h6⟩ :=
      step_received lim b hinv a k gp g sub s hk hg hm hs hna
    obtain ⟨hk1, _⟩ := step_bound lim b hinv a k gp g hk hg
    obtain ⟨g2, s2, j1, j2, j3, j4, j5, l2, j6⟩ :=
      ih (step lim b a) (Inv_step b hinv a) g1 s1 hk1 h1 h3 h4 hnr
    refine ⟨g2, s2, j1, j2.trans h2, j3, j4, ?_, l1 ++ l2, ?_⟩
    · rw [j5, h5, h2, emitted_cons k g.kind a rest, List.append_assoc]
    · rw [j6, h6, List.append_assoc]

theorem sum_map_add_const (l : List Nat) (f g : Nat → Nat) (c : Nat)
    (h : ∀ x ∈ l, g x = f x + c) : (l.map g).sum = (l.map f).sum + l.length * c := by
  induction l with
  | nil => simp
  | cons a l ih =>
    have h1 := h a (List.mem_cons_self _ _)
    have h2 := ih (fun x hx => h x (List.mem_cons_of_mem _ hx))
    simp only [List.map_cons, List.sum_cons, List.length_cons, h1, h2, Nat.succ_mul]
    omega

theorem step_delivery_frame (lim : Kind → Nat) (b : Bus) (hinv : Inv b) (a : Action) (ha : a.isDelivery = true) :
    (step lim b a).groups = b.groups ∧ (step lim b a).gmem = b.gmem := by
  cases a with
  | subscribe T q et => simp [Action.isDelivery] at ha
  | stop f => simp [Action.isDelivery] at ha
  | emit ev =>
    rcases Emit_cases b ev with h | ⟨o, g1, h1, h2, h3⟩
    · simp only [step, Emit_miss b ev h, and_self]
    · obtain ⟨mem1, he, _, _, _⟩ := Emit_hit b ev hinv o g1 h1 h2 h3
      simp only [step, he, Outcome.state, and_self]
  | listen x =>
    simp only [step, Bus.listen]
    split <;> exact ⟨rfl, rfl⟩

theorem run_delivery_frame (lim : Kind → Nat) (acts : List Action) (b : Bus) (hinv : Inv b)
    (ha : ∀ a ∈ acts, a.isDelivery = true) :
    (run lim acts b).groups = b.groups ∧ (run lim acts b).gmem = b.gmem := by
  induction acts generalizing b with
  | nil => exact ⟨rfl, rfl⟩
  | cons a rest ih =>
    obtain ⟨h1, h2⟩ := step_delivery_frame lim b hinv a (ha a (List.mem_cons_self _ _))
    obtain ⟨h3, h4⟩ := ih (step lim b a) (Inv_step b hinv a)
      (fun x hx => ha x (List.mem_cons_of_mem _ hx))
    exact ⟨h3.trans h1, h4.trans h2⟩

theorem delivery_count (lim : Kind → Nat) (b : Bus) (hinv : Inv b) (T : Kind) (k : EventType) (o : Nat) (g : group)
    (acts : List Action) (hk : Map.Get b.groups k = some o) (hg : b.gmem[o]? = some g)
    (hT : g.kind = T) (ha : ∀ a ∈ acts, a.isDelivery = true) (sub : Nat) (hm : sub ∈ g.subs) :
    (run lim acts b).receivedCount sub = b.receivedCount sub + (emitted k T acts).length ∧
      ((∀ s : subscriber, (run lim acts b).smem[sub]? = some s → s.queue = []) →
        (run lim acts b).handledCount sub = b.receivedCount sub + (emitted k T acts).length) := by
  obtain ⟨s0, hs0, _⟩ := hinv.subs_live o g sub hg hm
  have hns : Action.stop { g := o, s := sub } ∉ acts := by
    intro h
    have := ha _ h
    simp [Action.isDelivery] at this
  obtain ⟨g1, s1, _, _, _, h4, h5, _⟩ := run_received lim acts b hinv k o g sub s0 hk hg hm hs0 hns
  have hcount : (run lim acts b).receivedCount sub
      = b.receivedCount sub + (emitted k T acts).length := by
    simp only [Bus.receivedCount, h4, hs0, h5, hT, List.length_append]
  refine ⟨hcount, ?_⟩
  intro hq
  rw [← hcount]
  simp only [Bus.receivedCount, Bus.handledCount, h4, subscriber.received, hq s1 h4,
    List.append_nil]

theorem subsOfKey_eq (b : Bus) (k : EventType) (o : Nat) (g : group)
    (hk : Map.Get b.groups k = some o) (hg : b.gmem[o]? = some g) : b.subsOfKey k = g.subs := by
  simp [Bus.subsOfKey, Bus.subsOf, hk, hg]

/-- C5: in a reachable bus, (1) an `Emit` of an event whose key is bound to a group of
the event's kind returns normally, changes neither the map nor any group, and puts
exactly one copy of the event, at the end, into every subscriber registered in that
group, while every other subscriber is left exactly as it was.  (2) When each of the
`C` distinct keys in `keys` is bound to a group of kind `T` with `S` subscribers, and
a delivery phase (emits and listener progress in any interleaving) emits `M` events of
kind `T` under each key, then every subscriber under each key has accepted exactly `M`
more events, and all subscribers together `S * C * M` more; when the subscribers were
fresh and all queues have been drained, each handler has been invoked `M` times and
the total number of handler invocations is `S * C * M`. -/
theorem C5_fanout_exact (lim : Kind → Nat) (b : Bus) (hr : Reachable lim b) :
    (∀ (ev : Event) (o : Nat) (g : group), Map.Get b.groups ev.type = some o →
      b.gmem[o]? = some g → g.kind = ev.kind →
      ∃ b1, Emit b ev = Outcome.ok b1 () ∧ b1.groups = b.groups ∧ b1.gmem = b.gmem ∧
        b1.smem.length = b.smem.length ∧
        ∀ (sub : Nat) (s : subscriber), b.smem[sub]? = some s →
          (sub ∈ g.subs → ∃ s1, b1.smem[sub]? = some s1 ∧
            s1.handled ++ s1.queue = (s.handled ++ s.queue) ++ [ev]) ∧
          (sub ∉ g.subs → b1.smem[sub]? = some s)) ∧
    (∀ (T : Kind) (keys : List EventType) (S M : Nat) (acts : List Action),
      keys.Nodup →
      (∀ k ∈ keys, ∃ o g, Map.Get b.groups k = some o ∧ b.gmem[o]? = some g ∧
        g.kind = T ∧ g.subs.length = S) →
      (∀ a ∈ acts, a.isDelivery = true) →
      (∀ k ∈ keys, (emitted k T acts).length = M) →
      (∀ k ∈ keys, (run lim acts b).subsOfKey k = b.subsOfKey k) ∧
      (∀ k ∈ keys, ∀ sub ∈ b.subsOfKey k,
        (run lim acts b).receivedCount sub = b.receivedCount sub + M) ∧
      (run lim acts b).totalReceived keys = b.totalReceived keys + S * keys.length * M ∧
      ((∀ k ∈ keys, ∀ sub ∈ b.subsOfKey k, b.receivedCount sub = 0) →
        (∀ k ∈ keys, ∀ sub ∈ b.subsOfKey k, ∀ s : subscriber,
          (run lim acts b).smem[sub]? = some s → s.queue = []) →
        (∀ k ∈ keys, ∀ sub ∈ b.subsOfKey k, (run lim acts b).handledCount sub = M) ∧
        (run lim acts b).totalHandled keys = S * keys.length * M)) := by
  have hinv := hr.inv
  constructor
  · intro ev o g h1 h2 h3
    obtain ⟨mem1, he, hlen, hout, hin⟩ := Emit_hit b ev hinv o g h1 h2 h3
    refine ⟨_, he, rfl, rfl, hlen, ?_⟩
    intro sub s hs
    constructor
    · intro hm
      obtain ⟨s1, hsend, hs1⟩ := hin sub hm s hs
      obtain ⟨t, ht, hr2⟩ := hinv.subs_live o g sub h2 hm
      have e : s = t := Option.some.inj (hs.symm.trans ht)
      subst e
      exact ⟨s1, hs1, (send_running_keeps s s1 ev hr2 hsend).2⟩
    · intro hm
      exact (hout sub hm).trans hs
  · intro T keys S M acts _ hgroups hacts hM
    obtain ⟨fg, fm⟩ := run_delivery_frame lim acts b hinv hacts
    have hsame : ∀ k, (run lim acts b).subsOfKey k = b.subsOfKey k := by
      intro k
      simp only [Bus.subsOfKey, Bus.subsOf, fg, fm]
    have hrecv : ∀ k ∈ keys, ∀ sub ∈ b.subsOfKey k,
        (run lim acts b).receivedCount sub = b.receivedCount sub + M ∧
        ((∀ s : subscriber, (run lim acts b).smem[sub]? = some s → s.queue = []) →
          (run lim acts b).handledCount sub = b.receivedCount sub + M) := by
      intro k hk sub hsub
      obtain ⟨o, g, h1, h2, h3, _⟩ := hgroups k hk
      rw [subsOfKey_eq b k o g h1 h2] at hsub
      have := delivery_count lim b hinv T k o g acts h1 h2 h3 hacts sub hsub
      rw [hM k hk] at this
      exact this
    have hlen : ∀ k ∈ keys, (b.subsOfKey k).length = S := by
      intro k hk
      obtain ⟨o, g, h1, h2, _, h4⟩ := hgroups k hk
      rw [subsOfKey_eq b k o g h1 h2]
      exact h4
    refine ⟨fun k _ => hsame k, fun k hk sub hsub => (hrecv k hk sub hsub).1, ?_, ?_⟩
    · have hinner : ∀ k ∈ keys,
          (((run lim acts b).subsOfKey k).map (run lim acts b).receivedCount).sum
            = ((b.subsOfKey k).map b.receivedCount).sum + S * M := by
        intro k hk
        rw [hsame k, sum_map_add_const (b.subsOfKey k) b.receivedCount
          (run lim acts b).receivedCount M (fun sub hsub => (hrecv k hk sub hsub).1), hlen k hk]
      have := sum_map_add_const keys
        (fun k => ((b.subsOfKey k).map b.receivedCount).sum)
        (fun k => (((run lim acts b).subsOfKey k).map (run lim acts b).receivedCount).sum)
        (S * M) hinner
      simp only [Bus.totalReceived]
      rw [this]
      ring
    · intro hfresh hquiet
      have hh : ∀ k ∈ keys, ∀ sub ∈ b.subsOfKey k, (run lim acts b).handledCount sub = M := by
        intro k hk sub hsub
        have := (hrecv k hk sub hsub).2 (hquiet k hk sub hsub)
        rw [hfresh k hk sub hsub] at this
        simpa using this
      refine ⟨hh, ?_⟩
      have hinner : ∀ k ∈ keys,
          (((run lim acts b).subsOfKey k).map (run lim acts b).handledCount).sum
            = 0 + S * M := by
        intro k hk
        rw [hsame k, sum_map_add_const (b.subsOfKey k) (fun _ => 0)
          (run lim acts b).handledCount M
          (fun sub hsub => by rw [hh k hk sub hsub]; simp), hlen k hk]
        simp
      have := sum_map_add_const keys (fun _ => 0)
        (fun k => (((run lim acts b).subsOfKey k).map (run lim acts b).handledCount).sum)
        (S * M) hinner
      simp only [Bus.totalHandled]
      rw [this]
      simp
      ring

/-- C6: in a reachable bus, whatever the outcome of `Emit(bus, ev)`, every subscriber
registered under a key different from the key of `ev` is left exactly as it was
(nothing is enqueued, its handler log is unchanged), and the map and the heap of
groups are unchanged; and when no group is bound to the key of `ev`, `Emit` returns
normally and the whole state is unchanged (in any state, reachable or not). -/
theorem C6_emit_isolated (lim : Kind → Nat) (b : Bus) (hr : Reachable lim b) (ev : Event) :
    (∀ (k : EventType) (o : Nat) (g : group) (sub : Nat) (s : subscriber),
      k ≠ ev.type → Map.Get b.groups k = some o → b.gmem[o]? = some g → sub ∈ g.subs →
      b.smem[sub]? = some s → (Emit b ev).state.smem[sub]? = some s) ∧
    ((Emit b ev).state.groups = b.groups ∧ (Emit b ev).state.gmem = b.gmem) ∧
    (∀ b0 : Bus, Map.Get b0.groups ev.type = none → Emit b0 ev = Outcome.ok b0 ()) := by
  have hinv := hr.inv
  refine ⟨?_, step_delivery_frame lim b hinv (Action.emit ev) rfl, ?_⟩
  · intro k o g sub s hne hk hg hm hs
    rcases Emit_cases b ev with h | ⟨o1, g1, h1, h2, h3⟩
    · rw [Emit_miss b ev h]; exact hs
    · obtain ⟨mem1, he, _, hout, _⟩ := Emit_hit b ev hinv o1 g1 h1 h2 h3
      rw [he]
      have hog : o1 ≠ o := by
        intro e
        subst e
        exact hne (Get_inj b.groups k ev.type o1 hinv.ptrs_nodup hk h1)
      have hnm : sub ∉ g1.subs := fun hm1 =>
        hog (hinv.subs_disj o1 o g1 g sub h2 hg hm1 hm)
      exact (hout sub hnm).trans hs
  · intro b0 h
    simp [Emit, h]

theorem SubscribeTo_hit (lim : Kind → Nat) (b : Bus) (k : EventType) (o : Nat) (g : group)
    (n : Int) (hk : Map.Get b.groups k = some o) (hg : b.gmem[o]? = some g)
    (hfree : g.m = {}) :
    SubscribeTo lim b g.kind n k =
      if n < 0 ∨ (lim g.kind : Int) < n then Outcome.panicked b
      else Outcome.ok
        { b with
          gmem := b.gmem.set o { g with subs := g.subs ++ [b.smem.length] }
          smem := b.smem ++
            [{ queue := [], cap := n.toNat, closed := false, done := false, handled := [] }] }
        { g := o, s := b.smem.length } := by
  have h1 := GetOrCompute_hit b k g.kind o hk
  rw [SubscribeTo_eq lim b g.kind n k g (by rw [h1]; exact hg) hfree, h1]
  simp

theorem SubscribeTo_miss (lim : Kind → Nat) (b : Bus) (k : EventType) (T : Kind) (n : Int)
    (hk : Map.Get b.groups k = none) :
    SubscribeTo lim b T n k =
      if n < 0 ∨ (lim T : Int) < n then
        Outcome.panicked
          { b with groups := b.groups ++ [(k, b.gmem.length)], gmem := b.gmem ++ [newGroup T] }
      else Outcome.ok
        { groups := b.groups ++ [(k, b.gmem.length)]
          gmem := b.gmem ++ [{ kind := T, subs := [b.smem.length] }]
          smem := b.smem ++
            [{ queue := [], cap := n.toNat, closed := false, done := false, handled := [] }] }
        { g := b.gmem.length, s := b.smem.length } := by
  have h1 := GetOrCompute_miss b k T hk
  rw [SubscribeTo_eq lim b T n k (newGroup T)
    (by rw [h1]; exact List.getElem?_concat_length _ _) rfl, h1]
  simp [newGroup]

theorem subscribe_many_hit (lim : Kind → Nat) (T : Kind) (k : EventType) (o : Nat)
    (sizes : List Int) (b : Bus) (g : group) (hk : Map.Get b.groups k = some o)
    (hg : b.gmem[o]? = some g) (hT : g.kind = T) (hfree : g.m = {}) :
    (run lim (sizes.map fun n => Action.subscribe T n k) b).groups = b.groups ∧
    (run lim (sizes.map fun n => Action.subscribe T n k) b).gmem =
      b.gmem.set o
        { g with subs := g.subs ++ List.range' b.smem.length (validSizes (lim T) sizes) } := by
  induction sizes generalizing b g with
  | nil => simp [run, validSizes, set_same b.gmem o g hg]
  | cons n rest ih =>
    subst hT
    simp only [List.map_cons, run, step, SubscribeTo_hit lim b k o g n hk hg hfree]
    by_cases hn : n < 0 ∨ (lim g.kind : Int) < n
    · have hn2 : ¬ (0 ≤ n ∧ n ≤ (lim g.kind : Int)) := by omega
      obtain ⟨h1, h2⟩ := ih b g hk hg rfl hfree
      simp only [hn, if_true, Outcome.state, h1, h2, validSizes, List.countP_cons, hn2,
        decide_False, Bool.false_eq_true, if_false, Nat.add_zero, and_self]
    · have hn2 : 0 ≤ n ∧ n ≤ (lim g.kind : Int) := by omega
      simp only [hn, if_false, Outcome.state]
      have hlt : o < b.gmem.length := lt_of_getElem? _ _ _ hg
      obtain ⟨h1, h2⟩ := ih
        { b with
          gmem := b.gmem.set o { g with subs := g.subs ++ [b.smem.length] }
          smem := b.smem ++
            [{ queue := [], cap := n.toNat, closed := false, done := false, handled := [] }] }
        { g with subs := g.subs ++ [b.smem.length] } hk
        (List.getElem?_set_self hlt) rfl hfree
      refine ⟨h1, ?_⟩
      rw [h2]
      simp only [List.set_set, validSizes, List.countP_cons, hn2, and_self, decide_True,
        if_true, List.length_append, List.length_singleton, List.append_assoc,
        List.singleton_append]
      rw [List.range'_succ]

/-- C7 (as stated, refuted): in the bus of the tests after the first subscription, key 0
is bound to a group of kind 1.  A later `SubscribeTo` with the same key and the same
kind and buffer size -1, or a buffer size too large for `make`, panics and registers no
subscriber; and after the first two subscriptions for the unused key 0, with buffer
sizes 1 and -1, the group holds one subscriber, not two. -/
theorem C7_rejected_size_registers_nothing :
    Reachable smallLim busOne ∧ Map.Get busOne.groups 0 = some 0 ∧
      busOne.gmem[0]? = some { kind := 1, subs := [0] } ∧
      SubscribeTo smallLim busOne 1 (-1) 0 = Outcome.panicked busOne ∧
      SubscribeTo smallLim busOne 1 9223372036854775807 0 = Outcome.panicked busOne ∧
      Map.Get New.groups 0 = none ∧
      (run smallLim ([1, -1].map fun n => Action.subscribe 1 n 0) New).gmem
        = [{ kind := 1, subs := [0] }] := by
  refine ⟨⟨[Action.subscribe 1 1 0], rfl⟩, by decide, by decide, by decide, by decide,
    by decide, by decide⟩

/-- C7 (amended): in every reachable state, (1) no key occurs twice in the map and a
key is bound to at most one group pointer.  (2) A `SubscribeTo` for an unbound key
allocates exactly one new group, binds the key to it and changes no other binding;
with a buffer size that `make` accepts (`0 ≤ n ≤ lim T`) it returns normally and the
new group holds exactly the new subscriber, and with any other size it panics and
leaves the new group empty.  (3) A `SubscribeTo` with a bound key and the kind of its
group leaves the map and the number of groups as they are: with an accepted buffer
size it returns the handle of a new subscriber appended to that same group, and with
any other size it panics and the bus is unchanged.  (4) After a run of subscriptions
of one kind for a previously unbound key, the key is bound to the one group allocated
by the first of them, no other group was allocated, and that group holds exactly the
subscribers created by the subscriptions with an accepted size, in order of
subscription: `K` of them when all `K` sizes are accepted. -/
theorem C7_one_group_per_key (lim : Kind → Nat) (b : Bus) (hr : Reachable lim b) :
    ((b.groups.map Prod.fst).Nodup ∧
      ∀ (k : EventType) (o1 o2 : Nat), (k, o1) ∈ b.groups → (k, o2) ∈ b.groups → o1 = o2) ∧
    (∀ (k : EventType) (T : Kind) (n : Int), Map.Get b.groups k = none →
      (SubscribeTo lim b T n k).state.groups = b.groups ++ [(k, b.gmem.length)] ∧
      (SubscribeTo lim b T n k).state.gmem.length = b.gmem.length + 1 ∧
      (0 ≤ n ∧ n ≤ (lim T : Int) → ∃ b1, SubscribeTo lim b T n k =
          Outcome.ok b1 { g := b.gmem.length, s := b.smem.length } ∧
        b1.gmem = b.gmem ++ [{ kind := T, subs := [b.smem.length] }]) ∧
      (n < 0 ∨ (lim T : Int) < n → SubscribeTo lim b T n k = Outcome.panicked
          { b with groups := b.groups ++ [(k, b.gmem.length)],
                   gmem := b.gmem ++ [newGroup T] })) ∧
    (∀ (k : EventType) (o : Nat) (g : group) (n : Int), Map.Get b.groups k = some o →
      b.gmem[o]? = some g →
      (0 ≤ n ∧ n ≤ (lim g.kind : Int) → SubscribeTo lim b g.kind n k = Outcome.ok
        { b with
          gmem := b.gmem.set o { g with subs := g.subs ++ [b.smem.length] }
          smem := b.smem ++
            [{ queue := [], cap := n.toNat, closed := false, done := false, handled := [] }] }
        { g := o, s := b.smem.length }) ∧
      (n < 0 ∨ (lim g.kind : Int) < n →
        SubscribeTo lim b g.kind n k = Outcome.panicked b)) ∧
    (∀ (k : EventType) (T : Kind) (sizes : List Int), Map.Get b.groups k = none →
      sizes ≠ [] →
      (run lim (sizes.map fun n => Action.subscribe T n k) b).groups
        = b.groups ++ [(k, b.gmem.length)] ∧
      (run lim (sizes.map fun n => Action.subscribe T n k) b).gmem
        = b.gmem ++
          [{ kind := T, subs := List.range' b.smem.length (validSizes (lim T) sizes) }] ∧
      ((∀ n ∈ sizes, 0 ≤ n ∧ n ≤ (lim T : Int)) →
        validSizes (lim T) sizes = sizes.length)) := by
  have hinv := hr.inv
  refine ⟨⟨hinv.keys_nodup, ?_⟩, ?_, ?_, ?_⟩
  · intro k o1 o2 h1 h2
    have := List.inj_on_of_nodup_map hinv.keys_nodup h1 h2 rfl
    exact (Prod.mk.inj this).2
  · intro k T n hk
    rw [SubscribeTo_miss lim b k T n hk]
    by_cases hn : n < 0 ∨ (lim T : Int) < n
    · simp only [hn, if_true, Outcome.state, List.length_append, List.length_singleton,
        true_and, forall_const, and_true]
      intro h; omega
    · simp only [hn, if_false, Outcome.state, List.length_append, List.length_singleton,
        true_and, false_implies, and_true]
      intro _
      exact ⟨_, rfl, rfl⟩
  · intro k o g n hk hg
    rw [SubscribeTo_hit lim b k o g n hk hg (hinv.locks_free o g hg)]
    constructor
    · intro hn
      have : ¬ (n < 0 ∨ (lim g.kind : Int) < n) := by omega
      rw [if_neg this]
    · intro hn
      rw [if_pos hn]
  · intro k T sizes hk hne
    have hget : Map.Get (b.groups ++ [(k, b.gmem.length)]) k = some b.gmem.length := by
      rw [Get_append, hk]; simp
    cases sizes with
    | nil => exact absurd rfl hne
    | cons n rest =>
      refine ⟨?_, ?_, ?_⟩
      · simp only [List.map_cons, run, step, SubscribeTo_miss lim b k T n hk]
        by_cases hn : n < 0 ∨ (lim T : Int) < n
        · simp only [hn, if_true, Outcome.state]
          exact (subscribe_many_hit lim T k b.gmem.length rest _ (newGroup T) hget
            (List.getElem?_concat_length _ _) rfl rfl).1
        · simp only [hn, if_false, Outcome.state]
          exact (subscribe_many_hit lim T k b.gmem.length rest _
            { kind := T, subs := [b.smem.length] } hget
            (List.getElem?_concat_length _ _) rfl rfl).1
      · simp only [List.map_cons, run, step, SubscribeTo_miss lim b k T n hk]
        by_cases hn : n < 0 ∨ (lim T : Int) < n
        · have hn2 : ¬ (0 ≤ n ∧ n ≤ (lim T : Int)) := by omega
          simp only [hn, if_true, Outcome.state]
          rw [(subscribe_many_hit lim T k b.gmem.length rest _ (newGroup T) hget
            (List.getElem?_concat_length _ _) rfl rfl).2]
          simp [newGroup, validSizes, List.countP_cons, hn2]
        · have hn2 : 0 ≤ n ∧ n ≤ (lim T : Int) := by omega
          simp only [hn, if_false, Outcome.state]
          rw [(subscribe_many_hit lim T k b.gmem.length rest _
            { kind := T, subs := [b.smem.length] } hget
            (List.getElem?_concat_length _ _) rfl rfl).2]
          simp [validSizes, List.countP_cons, hn2, List.range'_succ]
      · intro hall
        simp only [validSizes]
        rw [List.countP_eq_length]
        intro x hx
        simpa using hall x hx

/-- C9: in a reachable bus, for every group and every subscriber `sub` in its
collection, `pop(sub)` returns normally; it stops `sub` (queue closed and drained into
the handler, listener exited) and changes no other subscriber; the collection it leaves
is one element shorter, does not contain `sub`, is a permutation of the original with
`sub` erased, and so contains every other subscriber as often as before. -/
theorem C9_pop_removes_exactly (lim : Kind → Nat) (b : Bus) (hr : Reachable lim b) (gp : Nat) (g : group) (sub : Nat)
    (hg : b.gmem[gp]? = some g) (hm : sub ∈ g.subs) :
    ∃ i s, Index g.subs sub = some i ∧ b.smem[sub]? = some s ∧
      g.pop sub b.smem = Outcome.ok
        ({ g with subs := swapRemove g.subs i },
          b.smem.set sub { queue := [], cap := s.cap, closed := true, done := true,
                           handled := s.handled ++ s.queue }) () ∧
      (∀ x, x ≠ sub →
        (b.smem.set sub
          { queue := [], cap := s.cap, closed := true, done := true,
            handled := s.handled ++ s.queue })[x]? = b.smem[x]?) ∧
      (swapRemove g.subs i).length + 1 = g.subs.length ∧
      sub ∉ swapRemove g.subs i ∧
      (swapRemove g.subs i).Perm (g.subs.erase sub) ∧
      ∀ y, y ≠ sub → (swapRemove g.subs i).count y = g.subs.count y := by
  have hinv := hr.inv
  have hn := hinv.subs_nodup gp g hg
  obtain ⟨s, hs, hrun⟩ := hinv.subs_live gp g sub hg hm
  cases hi : Index g.subs sub with
  | none => exact absurd hm ((Index_none _ _).mp hi)
  | some i =>
    have hperm := swapRemove_perm_erase g.subs sub i hi
    refine ⟨i, s, rfl, hs, ?_, ?_, ?_, ?_, hperm, ?_⟩
    · have hl : g.m.canLock = true := by rw [hinv.locks_free gp g hg]; rfl
      simp [group.pop, hl, hi, hs, stop_running s hrun.1 hrun.2.1 hrun.2.2.2]
    · intro x hx
      rw [List.getElem?_set_ne (fun h => hx h.symm)]
    · rw [hperm.length_eq, List.length_erase_of_mem hm]
      have : 0 < g.subs.length := List.length_pos_of_mem hm
      omega
    · intro h
      exact ((swapRemove_mem g.subs sub i sub hi hn).mp h).2 rfl
    · intro y hy
      rw [hperm.count_eq, List.count_erase_of_ne hy]

/-- C10: in every state reachable from `New()` by any sequence of `SubscribeTo`/`On`,
`Emit`, `StopFn` calls and listener steps, the subscribers in each group's collection
are pairwise distinct and each of them has an open queue and a running listener;
hence `group.send` returns normally for every group and event (it never sends on a
closed queue), and an `Emit` whose key is bound to a group of the event's kind returns
normally. -/
theorem C10_subscribers_open (lim : Kind → Nat) (b : Bus) (hr : Reachable lim b) :
    (∀ (gp : Nat) (g : group), b.gmem[gp]? = some g →
      g.subs.Nodup ∧
      ∀ sub ∈ g.subs, ∃ s : subscriber, b.smem[sub]? = some s ∧ s.closed = false ∧
        s.done = false) ∧
    (∀ (gp : Nat) (g : group) (ev : Event), b.gmem[gp]? = some g →
      ∃ mem1, g.send ev b.smem = Outcome.ok (g, mem1) ()) ∧
    (∀ (ev : Event) (o : Nat) (g : group), Map.Get b.groups ev.type = some o →
      b.gmem[o]? = some g → g.kind = ev.kind → ∃ b1, Emit b ev = Outcome.ok b1 ()) := by
  have hinv := hr.inv
  refine ⟨?_, ?_, ?_⟩
  · intro gp g hg
    refine ⟨hinv.subs_nodup gp g hg, ?_⟩
    intro sub hm
    obtain ⟨s, hs, hrun⟩ := hinv.subs_live gp g sub hg hm
    exact ⟨s, hs, hrun.1, hrun.2.1⟩
  · intro gp g ev hg
    obtain ⟨mem1, h, _⟩ :=
      sendLoop_ok ev g.subs b.smem (hinv.subs_nodup gp g hg) (hinv.subs_live gp g · hg)
    have hl : g.m.canRLock = true := by rw [hinv.locks_free gp g hg]; rfl
    exact ⟨mem1, by simp [group.send, hl, h]⟩
  · intro ev o g h1 h2 h3
    obtain ⟨mem1, he, _⟩ := Emit_hit b ev hinv o g h1 h2 h3
    exact ⟨_, he⟩

/-! ## Handlers that do not return, or that call the bus

The invariant `WInv` and the persistence of non-membership hold for every move. -/

theorem sendLoop_length (subs : List Nat) (ev : Event) (mem : List subscriber) :
    (group.sendLoop subs ev mem).state.length = mem.length := by
  induction subs generalizing mem with
  | nil => rfl
  | cons sub rest ih =>
    unfold group.sendLoop
    split
    · rfl
    · split
      · rw [ih]; simp
      · simp [Outcome.state]
      · simp [Outcome.state]

theorem send_shape (g : group) (ev : Event) (mem : List subscriber) :
    (g.send ev mem).state.1.subs = g.subs ∧ (g.send ev mem).state.2.length = mem.length := by
  have h := sendLoop_length g.subs ev mem
  unfold group.send
  split
  · split
    · next mem1 _ heq => rw [heq] at h; exact ⟨rfl, h⟩
    · next mem1 heq => rw [heq] at h; exact ⟨rfl, h⟩
    · next mem1 heq => rw [heq] at h; exact ⟨rfl, h⟩
  · exact ⟨rfl, rfl⟩

theorem pop_shape (g : group) (sub : Nat) (mem : List subscriber) :
    (g.pop sub mem).state.2.length = mem.length ∧
      ((g.pop sub mem).state.1.subs = g.subs ∨
        ∃ i, Index g.subs sub = some i ∧ (g.pop sub mem).state.1.subs = swapRemove g.subs i) := by
  by_cases hl : g.m.canLock = true
  · cases hI : Index g.subs sub with
    | none => simp [group.pop, hl, hI, Outcome.state]
    | some i =>
      cases hm : mem[sub]? with
      | none => simp [group.pop, hl, hI, hm, Outcome.state]
      | some s =>
        cases hs : s.stop with
        | ok s1 r => simp [group.pop, hl, hI, hm, hs, Outcome.state]
        | panicked s1 => simp [group.pop, hl, hI, hm, hs, Outcome.state]
        | blocked s1 => simp [group.pop, hl, hI, hm, hs, Outcome.state]
  · simp [group.pop, hl, Outcome.state]

theorem add_shape (lim : Kind → Nat) (g : group) (qsize : Int) (mem : List subscriber) :
    ((g.add lim qsize mem).state.1.subs = g.subs ∧ (g.add lim qsize mem).state.2 = mem) ∨
      ((g.add lim qsize mem).state.1.subs = g.subs ++ [mem.length] ∧
        (g.add lim qsize mem).state.2.length = mem.length + 1) := by
  unfold group.add
  split
  · exact Or.inl ⟨rfl, rfl⟩
  · split
    · exact Or.inr ⟨rfl, by simp [Outcome.state]⟩
    · exact Or.inl ⟨rfl, rfl⟩

theorem call_state (f : StopFn) (b : Bus) (g : group) (hg : b.gmem[f.g]? = some g) :
    (f.call b).state =
      { b with gmem := b.gmem.set f.g (g.pop f.s b.smem).state.1,
               smem := (g.pop f.s b.smem).state.2 } := by
  unfold StopFn.call
  rw [hg]
  simp only
  cases g.pop f.s b.smem with
  | ok st r => rfl
  | panicked st => rfl
  | blocked st => rfl

theorem Emit_state (b : Bus) (ev : Event) (o : Nat) (g : group)
    (h1 : Map.Get b.groups ev.type = some o) (h2 : b.gmem[o]? = some g)
    (h3 : g.kind = ev.kind) :
    (Emit b ev).state =
      { b with gmem := b.gmem.set o (g.send ev b.smem).state.1,
               smem := (g.send ev b.smem).state.2 } := by
  unfold Emit
  rw [h1]
  simp only [h2, h3, if_true]
  cases g.send ev b.smem with
  | ok st r => rfl
  | panicked st => rfl
  | blocked st => rfl

theorem SubscribeTo_state (lim : Kind → Nat) (b : Bus) (T : Kind) (qsize : Int)
    (et : EventType) :
    (SubscribeTo lim b T qsize et).state = (b.GetOrCompute et T).2 ∨
      ∃ g, (b.GetOrCompute et T).2.gmem[(b.GetOrCompute et T).1]? = some g ∧
        (SubscribeTo lim b T qsize et).state =
          { (b.GetOrCompute et T).2 with
            gmem := (b.GetOrCompute et T).2.gmem.set (b.GetOrCompute et T).1
              (g.add lim qsize (b.GetOrCompute et T).2.smem).state.1,
            smem := (g.add lim qsize (b.GetOrCompute et T).2.smem).state.2 } := by
  unfold SubscribeTo
  simp only
  cases hg : (b.GetOrCompute et T).2.gmem[(b.GetOrCompute et T).1]? with
  | none => exact Or.inl rfl
  | some g =>
    simp only
    by_cases hk : g.kind = T
    · simp only [hk, if_true]
      by_cases hc : newConsumer (lim g.kind) qsize = none
      · left
        simp [group.add, hc, Outcome.state]
      · obtain ⟨c, hc⟩ := Option.ne_none_iff_exists'.mp hc
        refine Or.inr ⟨g, rfl, ?_⟩
        by_cases hl : g.m.canLock = true
        · simp [group.add, hc, hl, Outcome.state]
        · simp [group.add, hc, hl, Outcome.state]
    · simp only [hk, if_false]
      exact Or.inl rfl

theorem subsOf_eq (b : Bus) (gp : Nat) (g : group) (hg : b.gmem[gp]? = some g) :
    b.subsOf gp = g.subs := by
  simp [Bus.subsOf, hg]

theorem subsOf_set (b : Bus) (o gp : Nat) (g g1 : group) (mem1 : List subscriber)
    (hg : b.gmem[o]? = some g) :
    Bus.subsOf { b with gmem := b.gmem.set o g1, smem := mem1 } gp =
      if gp = o then g1.subs else b.subsOf gp := by
  by_cases h : gp = o
  · subst h
    simp [Bus.subsOf, List.getElem?_set_self (lt_of_getElem? _ _ _ hg)]
  · have h2 : ¬ o = gp := fun e => h e.symm
    simp [Bus.subsOf, List.getElem?_set_ne h2, h]

theorem Grows_same (b b1 : Bus) (hg : b1.gmem = b.gmem)
    (hs : b1.smem.length = b.smem.length) : Grows b b1 :=
  ⟨by rw [hs], by rw [hg], fun gp => Or.inl (by simp [Bus.subsOf, hg])⟩

theorem Grows_set (b : Bus) (o : Nat) (g g1 : group) (mem1 : List subscriber)
    (hg : b.gmem[o]? = some g) (hlen : b.smem.length ≤ mem1.length)
    (hsubs : g1.subs = g.subs ∨
      (g1.subs = g.subs ++ [b.smem.length] ∧ b.smem.length < mem1.length) ∨
      ∃ x i, Index g.subs x = some i ∧ g1.subs = swapRemove g.subs i) :
    Grows b { b with gmem := b.gmem.set o g1, smem := mem1 } := by
  refine ⟨hlen, by simp, ?_⟩
  intro gp
  rw [subsOf_set b o gp g g1 mem1 hg]
  by_cases h : gp = o
  · subst h
    rw [if_pos rfl, subsOf_eq b gp g hg]
    exact hsubs
  · rw [if_neg h]
    exact Or.inl rfl

theorem Grows_left (b b1 b2 : Bus) (hsub : ∀ gp, b1.subsOf gp = b.subsOf gp)
    (hs : b1.smem.length = b.smem.length) (hgl : b.gmem.length ≤ b1.gmem.length)
    (h : Grows b1 b2) : Grows b b2 := by
  refine ⟨by rw [← hs]; exact h.slen, Nat.le_trans hgl h.glen, ?_⟩
  intro gp
  rw [← hsub gp, ← hs]
  exact h.subs gp

theorem Grows_right (b b1 b2 : Bus) (h : Grows b b1)
    (hsub : ∀ gp, b2.subsOf gp = b1.subsOf gp)
    (hs : b2.smem.length = b1.smem.length) (hgl : b1.gmem.length ≤ b2.gmem.length) :
    Grows b b2 := by
  refine ⟨by rw [hs]; exact h.slen, Nat.le_trans h.glen hgl, ?_⟩
  intro gp
  rw [hsub gp, hs]
  exact h.subs gp

theorem Grows_GetOrCompute (b : Bus) (et : EventType) (T : Kind) :
    (∀ gp, (b.GetOrCompute et T).2.subsOf gp = b.subsOf gp) ∧
      (b.GetOrCompute et T).2.smem.length = b.smem.length ∧
      b.gmem.length ≤ (b.GetOrCompute et T).2.gmem.length := by
  cases h : Map.Get b.groups et with
  | some o =>
    rw [GetOrCompute_hit b et T o h]
    exact ⟨fun _ => rfl, rfl, Nat.le_refl _⟩
  | none =>
    rw [GetOrCompute_miss b et T h]
    refine ⟨?_, rfl, by simp⟩
    intro gp
    show Bus.subsOf { b with groups := _, gmem := b.gmem ++ [newGroup T] } gp = _
    simp only [Bus.subsOf]
    by_cases hlt : gp < b.gmem.length
    · rw [List.getElem?_append_left hlt]
    · have hge : b.gmem.length ≤ gp := by omega
      rw [List.getElem?_eq_none hge]
      by_cases he : gp = b.gmem.length
      · subst he
        rw [List.getElem?_concat_length]
        rfl
      · rw [List.getElem?_eq_none (by simp; omega)]

theorem Grows_SubscribeTo (lim : Kind → Nat) (b : Bus) (T : Kind) (qsize : Int)
    (et : EventType) : Grows b (SubscribeTo lim b T qsize et).state := by
  obtain ⟨h1, h2, h3⟩ := Grows_GetOrCompute b et T
  refine Grows_left b (b.GetOrCompute et T).2 _ h1 h2 h3 ?_
  rcases SubscribeTo_state lim b T qsize et with h | ⟨g, hg, h⟩
  · rw [h]
    exact Grows_same _ _ rfl rfl
  · rw [h]
    refine Grows_set _ _ g _ _ hg ?_ ?_
    · rcases add_shape lim g qsize (b.GetOrCompute et T).2.smem with ⟨_, e⟩ | ⟨_, e⟩
      · rw [e]
      · rw [e]; omega
    · rcases add_shape lim g qsize (b.GetOrCompute et T).2.smem with ⟨e1, _⟩ | ⟨e1, e2⟩
      · exact Or.inl e1
      · exact Or.inr (Or.inl ⟨e1, by rw [e2]; omega⟩)

theorem Grows_Emit (b : Bus) (ev : Event) : Grows b (Emit b ev).state := by
  rcases Emit_cases b ev with h | ⟨o, g, h1, h2, h3⟩
  · rw [Emit_miss b ev h]
    exact Grows_same _ _ rfl rfl
  · rw [Emit_state b ev o g h1 h2 h3]
    obtain ⟨e1, e2⟩ := send_shape g ev b.smem
    exact Grows_set b o g _ _ h2 (by rw [e2]) (Or.inl e1)

theorem Grows_call (f : StopFn) (b : Bus) : Grows b (f.call b).state := by
  cases hg : b.gmem[f.g]? with
  | none =>
    rw [call_dangling f b hg]
    exact Grows_same _ _ rfl rfl
  | some g =>
    rw [call_state f b g hg]
    obtain ⟨e1, e2⟩ := pop_shape g f.s b.smem
    refine Grows_set b f.g g _ _ hg (by rw [e1]) ?_
    rcases e2 with e2 | ⟨i, hi, e2⟩
    · exact Or.inl e2
    · exact Or.inr (Or.inr ⟨f.s, i, hi, e2⟩)

theorem Grows_listen (b : Bus) (sub : Nat) : Grows b (b.listen sub) := by
  unfold Bus.listen
  split
  · exact Grows_same _ _ rfl rfl
  · exact Grows_same _ _ rfl (by simp)

theorem Grows_step (lim : Kind → Nat) (b : Bus) (a : Action) : Grows b (step lim b a) := by
  cases a with
  | subscribe T qsize et => exact Grows_SubscribeTo lim b T qsize et
  | emit ev => exact Grows_Emit b ev
  | stop f => exact Grows_call f b
  | listen sub => exact Grows_listen b sub

theorem Grows_listenStall (b : Bus) (sub : Nat) : Grows b (b.listenStall sub) := by
  unfold Bus.listenStall
  split
  · exact Grows_same _ _ rfl rfl
  · split
    · exact Grows_same _ _ rfl rfl
    · split
      · exact Grows_same _ _ rfl rfl
      · exact Grows_same _ _ rfl (by simp)

theorem Grows_resume (b : Bus) (sub : Nat) :
    (b.resume sub).gmem = b.gmem ∧ (b.resume sub).smem.length = b.smem.length := by
  unfold Bus.resume
  split
  · exact ⟨rfl, rfl⟩
  · exact ⟨rfl, by simp⟩

theorem callFromHandler_state (f : StopFn) (sub : Nat) (b : Bus) :
    (f.callFromHandler sub b).state = b ∨
      ∃ s1 : subscriber,
        (f.callFromHandler sub b).state = (f.call { b with smem := b.smem.set sub s1 }).state ∨
        (f.callFromHandler sub b).state =
          ((f.call { b with smem := b.smem.set sub s1 }).state).resume sub := by
  cases hs : b.smem[sub]? with
  | none => left; simp [StopFn.callFromHandler, hs, Outcome.state]
  | some s =>
    by_cases hd : (s.done || s.busy) = true
    · left; simp [StopFn.callFromHandler, hs, hd, Outcome.state]
    · cases hq : s.queue with
      | nil => left; simp [StopFn.callFromHandler, hs, hd, hq, Outcome.state]
      | cons ev rest =>
        right
        refine ⟨{ s with queue := rest, handled := s.handled ++ [ev], busy := true }, ?_⟩
        cases hc : f.call
            { b with
              smem := b.smem.set sub
                { s with queue := rest, handled := s.handled ++ [ev], busy := true } } with
        | ok b1 r => right; simp [StopFn.callFromHandler, hs, hd, hq, hc, Outcome.state]
        | panicked b1 => left; simp [StopFn.callFromHandler, hs, hd, hq, hc, Outcome.state]
        | blocked b1 => left; simp [StopFn.callFromHandler, hs, hd, hq, hc, Outcome.state]

theorem Grows_callFromHandler (f : StopFn) (sub : Nat) (b : Bus) :
    Grows b (f.callFromHandler sub b).state := by
  rcases callFromHandler_state f sub b with h | ⟨s1, h | h⟩
  · rw [h]; exact Grows_same _ _ rfl rfl
  · rw [h]
    exact Grows_left b { b with smem := b.smem.set sub s1 } _ (fun _ => rfl) (by simp)
      (Nat.le_refl _) (Grows_call f _)
  · rw [h]
    have hleft : Grows b (f.call { b with smem := b.smem.set sub s1 }).state :=
      Grows_left b { b with smem := b.smem.set sub s1 } _ (fun _ => rfl) (by simp)
        (Nat.le_refl _) (Grows_call f _)
    obtain ⟨e1, e2⟩ := Grows_resume (f.call { b with smem := b.smem.set sub s1 }).state sub
    exact Grows_right b _ _ hleft (fun gp => by simp [Bus.subsOf, e1]) e2 (by rw [e1])

theorem Grows_move (lim : Kind → Nat) (b : Bus) (m : Move) : Grows b (move lim b m) := by
  cases m with
  | act a => exact Grows_step lim b a
  | stall sub => exact Grows_listenStall b sub
  | stopInHandler sub f => exact Grows_callFromHandler f sub b

theorem swapRemove_sub (l : List Nat) (x i y : Nat) (h : Index l x = some i)
    (hy : y ∈ swapRemove l i) : y ∈ l :=
  List.mem_of_mem_erase ((swapRemove_perm_erase l x i h).mem_iff.mp hy)

theorem WInv_Grows (b b1 : Bus) (hw : WInv b) (h : Grows b b1) : WInv b1 := by
  intro gp
  obtain ⟨hn, hb⟩ := hw gp
  rcases h.subs gp with e | ⟨e, hlt⟩ | ⟨x, i, hi, e⟩
  · rw [e]
    exact ⟨hn, fun sub hs => Nat.lt_of_lt_of_le (hb sub hs) h.slen⟩
  · rw [e]
    refine ⟨List.Nodup.append hn (List.nodup_singleton _)
      (List.disjoint_singleton.mpr (fun hm => Nat.lt_irrefl _ (hb _ hm))), ?_⟩
    intro sub hs
    rcases List.mem_append.mp hs with hs | hs
    · exact Nat.lt_of_lt_of_le (hb sub hs) h.slen
    · have : sub = b.smem.length := by simpa using hs
      rw [this]; exact hlt
  · rw [e]
    exact ⟨swapRemove_nodup _ x i hi hn,
      fun sub hs => Nat.lt_of_lt_of_le (hb sub (swapRemove_sub _ x i sub hi hs)) h.slen⟩

theorem absent_Grows (b b1 : Bus) (h : Grows b b1) (gp x : Nat) (hx : x < b.smem.length)
    (hm : x ∉ b.subsOf gp) : x ∉ b1.subsOf gp := by
  rcases h.subs gp with e | ⟨e, _⟩ | ⟨y, i, hi, e⟩
  · rw [e]; exact hm
  · rw [e]
    intro hin
    rcases List.mem_append.mp hin with hin | hin
    · exact hm hin
    · have : x = b.smem.length := by simpa using hin
      omega
  · rw [e]
    exact fun hin => hm (swapRemove_sub _ y i x hi hin)

theorem WInv_New : WInv New := by
  intro gp
  simp [Bus.subsOf, New]

theorem WInv_play (lim : Kind → Nat) (ms : List Move) (b : Bus) (hw : WInv b) :
    WInv (play lim ms b) := by
  induction ms generalizing b with
  | nil => exact hw
  | cons m rest ih => exact ih (move lim b m) (WInv_Grows b _ hw (Grows_move lim b m))

theorem Possible.winv {lim : Kind → Nat} {b : Bus} (h : Possible lim b) : WInv b := by
  obtain ⟨ms, rfl⟩ := h
  exact WInv_play lim ms New WInv_New

/-- A subscriber that is allocated and is not in the collection of a group never gets
into it, and the group stays allocated, whatever happens. -/
theorem absent_play (lim : Kind → Nat) (ms : List Move) (b : Bus) (gp x : Nat)
    (hx : x < b.smem.length) (hm : x ∉ b.subsOf gp) (hg : gp < b.gmem.length) :
    x ∉ (play lim ms b).subsOf gp ∧ gp < (play lim ms b).gmem.length := by
  induction ms generalizing b with
  | nil => exact ⟨hm, hg⟩
  | cons m rest ih =>
    have hgr := Grows_move lim b m
    exact ih (move lim b m) (Nat.lt_of_lt_of_le hx hgr.slen) (absent_Grows b _ hgr gp x hx hm)
      (Nat.lt_of_lt_of_le hg hgr.glen)

theorem slen_play (lim : Kind → Nat) (ms : List Move) (b : Bus) :
    b.smem.length ≤ (play lim ms b).smem.length := by
  induction ms generalizing b with
  | nil => exact Nat.le_refl _
  | cons m rest ih => exact Nat.le_trans (Grows_move lim b m).slen (ih (move lim b m))

theorem play_acts (lim : Kind → Nat) (acts : List Action) (b : Bus) :
    play lim (acts.map Move.act) b = run lim acts b := by
  induction acts generalizing b with
  | nil => rfl
  | cons a rest ih => exact ih (step lim b a)

theorem Reachable.possible {lim : Kind → Nat} {b : Bus} (h : Reachable lim b) :
    Possible lim b := by
  obtain ⟨acts, rfl⟩ := h
  exact ⟨acts.map Move.act, play_acts lim acts New⟩

/-- A `StopFn` whose subscriber is not in the collection returns at once when it gets
the lock, and otherwise waits for the lock for ever; it changes nothing but the mutex. -/
theorem call_absent_lock (f : StopFn) (b : Bus) (g : group) (hg : b.gmem[f.g]? = some g)
    (hm : f.s ∉ g.subs) :
    (g.m.canLock = true → f.call b = Outcome.ok b ()) ∧
      (g.m.canLock = false → f.call b = Outcome.blocked
        { b with gmem := b.gmem.set f.g { g with m := g.m.heldW } }) := by
  have h3 : Index g.subs f.s = none := (Index_none _ _).mpr hm
  constructor
  · intro hl
    simp [StopFn.call, hg, group.pop, hl, h3, set_same b.gmem f.g g hg]
  · intro hl
    simp [StopFn.call, hg, group.pop, hl]

/-- When a call of a `StopFn` has returned, its subscriber is not in the collection of
its group. -/
theorem call_ok_absent (f : StopFn) (b b3 : Bus) (hw : WInv b)
    (h : f.call b = Outcome.ok b3 ()) :
    f.g < b3.gmem.length ∧ f.s ∉ b3.subsOf f.g ∧ b3.smem.length = b.smem.length := by
  cases hg : b.gmem[f.g]? with
  | none => rw [call_dangling f b hg] at h; cases h
  | some g =>
    have hlt : f.g < b.gmem.length := lt_of_getElem? _ _ _ hg
    by_cases hl : g.m.canLock = true
    · cases hI : Index g.subs f.s with
      | none =>
        have hm : f.s ∉ g.subs := (Index_none _ _).mp hI
        rw [(call_absent_lock f b g hg hm).1 hl] at h
        cases h
        exact ⟨hlt, by rw [subsOf_eq b f.g g hg]; exact hm, rfl⟩
      | some i =>
        cases hm : b.smem[f.s]? with
        | none => simp [StopFn.call, hg, group.pop, hl, hI, hm] at h
        | some s =>
          cases hs : s.stop with
          | ok s1 r =>
            simp only [StopFn.call, hg, group.pop, hl, hI, hm, hs, if_true] at h
            cases h
            refine ⟨by simpa using hlt, ?_, by simp⟩
            rw [subsOf_set b f.g f.g g _ _ hg, if_pos rfl]
            have hn : g.subs.Nodup := by
              have := (hw f.g).1
              rw [subsOf_eq b f.g g hg] at this
              exact this
            exact fun hin => ((swapRemove_mem g.subs f.s i f.s hI hn).mp hin).2 rfl
          | panicked s1 => simp [StopFn.call, hg, group.pop, hl, hI, hm, hs] at h
          | blocked s1 => simp [StopFn.call, hg, group.pop, hl, hI, hm, hs] at h
    · simp [StopFn.call, hg, group.pop, hl] at h

/-- The handle returned by a successful `SubscribeTo` points to an allocated group and
an allocated subscriber, in any state. -/
theorem SubscribeTo_ok_alloc (lim : Kind → Nat) (b : Bus) (T : Kind) (n : Int)
    (k : EventType) (b1 : Bus) (f : StopFn) (h : SubscribeTo lim b T n k = Outcome.ok b1 f) :
    f.s < b1.smem.length ∧ f.g < b1.gmem.length := by
  unfold SubscribeTo at h
  simp only at h
  cases hg : (b.GetOrCompute k T).2.gmem[(b.GetOrCompute k T).1]? with
  | none => simp [hg] at h
  | some g =>
    have hlt := lt_of_getElem? _ _ _ hg
    by_cases hk : g.kind = T
    · subst hk
      cases hc : newConsumer (lim g.kind) n with
      | none => simp [hg, group.add, hc] at h
      | some c =>
        by_cases hl : g.m.canLock = true
        · simp only [hg, group.add, hc, hl, if_true] at h
          injection h with h1 h2
          subst h1 h2
          exact ⟨by simp, by simpa using hlt⟩
        · simp [hg, group.add, hc, hl] at h
    · simp [hg, hk] at h

/-- C3 (as stated, refuted): a repeated call of a `StopFn` can block for ever.
(1) In the bus of `TestUnsubscribe` after one emit, the handler, invoked on the event,
calls the `StopFn` of its own subscriber: `pop` takes the write lock, `stop` closes the
queue and waits for the listener, which is inside that handler; the call never returns,
and a second call of the `StopFn` waits for the write lock for ever.
(2) With two subscribers, the `StopFn` of the first is called and returns.  Then the
handler of the second does not return, its buffer fills up, and an `Emit` blocks in
`send` holding the read lock; the `StopFn` of the first, called again, waits for the
write lock for ever. -/
theorem C3_repeated_stop_blocks :
    (On smallLim New (intEvent 0) = Outcome.ok busOne { g := 0, s := 0 } ∧
      StopFn.callFromHandler { g := 0, s := 0 } 0
          (run smallLim [Action.emit (intEvent 1)] busOne) = Outcome.blocked busSelfStop ∧
      StopFn.call { g := 0, s := 0 } busSelfStop = Outcome.blocked busSelfStop) ∧
    (On smallLim busOne (intEvent 0) = Outcome.ok
          (run smallLim [Action.subscribe 1 1 0] busOne) { g := 0, s := 1 } ∧
      StopFn.call { g := 0, s := 0 } (run smallLim [Action.subscribe 1 1 0] busOne)
        = Outcome.ok busPairStopped () ∧
      play smallLim stallMoves busPairStopped = busStalled ∧
      StopFn.call { g := 0, s := 0 } busStalled = Outcome.blocked
        { busStalled with
          gmem := [{ kind := 1, subs := [1], m := { readers := 1, writer := true } }] }) := by
  refine ⟨⟨by decide, by decide, by decide⟩, by decide, by decide, by decide, by decide⟩

/-- C3 (amended): let `f` be the `StopFn` returned by a successful `SubscribeTo` (or
`On`), in any state the program can be in.  (1) For every sequence of moves, handlers
that never return or that call a `StopFn` included: once a call of `f` has returned,
then after any further moves the subscriber of `f` is not in
the collection of its group, and a repeated call of `f` never panics and touches
neither the map, nor a collection, nor a subscriber: when the write lock of the group
can be taken it returns normally and leaves the whole state unchanged, and when the
lock is held for ever (a handler of the group does not return, or called a `StopFn`
itself) it waits for the lock for ever, its only trace being the pending writer on the
mutex of the group.  (2) When handlers return and do not call the bus, the lock can
always be taken: the first call of `f`, after any activity, returns normally, and a
repeated call, after any activity and in particular at once, returns normally and
leaves the whole state unchanged. -/
theorem C3_stop_idempotent (lim : Kind → Nat) (b : Bus) (hp : Possible lim b) (T : Kind)
    (n : Int) (k : EventType) (b1 : Bus) (f : StopFn)
    (hsub : SubscribeTo lim b T n k = Outcome.ok b1 f) :
    (∀ (ms1 : List Move) (b3 : Bus), f.call (play lim ms1 b1) = Outcome.ok b3 () →
      ∀ ms2 : List Move, ∃ g, (play lim ms2 b3).gmem[f.g]? = some g ∧ f.s ∉ g.subs ∧
        (g.m.canLock = true →
          f.call (play lim ms2 b3) = Outcome.ok (play lim ms2 b3) ()) ∧
        (g.m.canLock = false →
          f.call (play lim ms2 b3) = Outcome.blocked
            { play lim ms2 b3 with
              gmem := (play lim ms2 b3).gmem.set f.g { g with m := g.m.heldW } })) ∧
    (Reachable lim b → ∀ acts1 acts2 : List Action,
      ∃ b3, f.call (run lim acts1 b1) = Outcome.ok b3 () ∧
        f.call (run lim acts2 b3) = Outcome.ok (run lim acts2 b3) () ∧
        f.call b3 = Outcome.ok b3 ()) := by
  constructor
  · intro ms1 b3 hcall ms2
    have hw1 : WInv b1 := by
      have := WInv_Grows b _ hp.winv (Grows_SubscribeTo lim b T n k)
      rw [hsub] at this
      exact this
    obtain ⟨hs1, _⟩ := SubscribeTo_ok_alloc lim b T n k b1 f hsub
    obtain ⟨hg3, hm3, hlen⟩ :=
      call_ok_absent f (play lim ms1 b1) b3 (WInv_play lim ms1 b1 hw1) hcall
    have hs3 : f.s < b3.smem.length := by
      rw [hlen]
      exact Nat.lt_of_lt_of_le hs1 (slen_play lim ms1 b1)
    obtain ⟨hm4, hg4⟩ := absent_play lim ms2 b3 f.g f.s hs3 hm3 hg3
    have hg : (play lim ms2 b3).gmem[f.g]? = some (play lim ms2 b3).gmem[f.g] :=
      List.getElem?_eq_getElem hg4
    rw [subsOf_eq _ f.g _ hg] at hm4
    exact ⟨_, hg, hm4, (call_absent_lock f _ _ hg hm4).1, (call_absent_lock f _ _ hg hm4).2⟩
  · intro hr acts1 acts2
    exact stop_twice_returns lim b hr T n k b1 f hsub acts1 acts2

/-! ## The theorems at concrete inputs -/

theorem busOne_reachable : Reachable smallLim busOne := ⟨[Action.subscribe 1 1 0], rfl⟩

theorem busMatrix_reachable : Reachable smallLim busMatrix :=
  ⟨[Action.subscribe 3 1 10, Action.subscribe 3 1 11, Action.subscribe 3 1 10,
    Action.subscribe 3 1 11], rfl⟩

/-- The scenario of `TestSubscribeDifferentType`: the first subscription binds key 0
to a group of kind 1; a subscription and an emit of kind 2 with key 0 panic. -/
theorem C1_witness :
    SubscribeTo smallLim New 1 1 0 = Outcome.ok busOne { g := 0, s := 0 } ∧
      Map.Get busOne.groups 0 = some 0 ∧
      busOne.gmem[0]? = some { kind := 1, subs := [0] } ∧
      SubscribeTo smallLim busOne 2 1 0 = Outcome.panicked busOne ∧
      Emit busOne alienEvent = Outcome.panicked busOne :=
  ⟨by decide, by decide, by decide,
    (C1_kind_mismatch_fails_fast smallLim busOne 0 0 { kind := 1, subs := [0] } (by decide) (by decide)
      2 (by decide) 1).1,
    (C1_kind_mismatch_fails_fast smallLim busOne 0 0 { kind := 1, subs := [0] } (by decide) (by decide)
      2 (by decide) 1).2 alienEvent rfl rfl⟩

/-- The scenario of `TestUnsubscribe`, with one event handled and one still buffered
when the subscriber is stopped. -/
theorem C2_witness :
    Reachable smallLim New ∧ On smallLim New (intEvent 0) = Outcome.ok busOne { g := 0, s := 0 } ∧
      busTwoEmits.smem[0]? = some
        { queue := [intEvent 2], cap := 1, closed := false, done := false,
          handled := [intEvent 1] } ∧
      ∃ b3 s2 s3, StopFn.call { g := 0, s := 0 } busTwoEmits = Outcome.ok b3 () ∧
        busTwoEmits.smem[0]? = some s2 ∧ b3.smem[0]? = some s3 ∧
        s3.Stopped ∧ s3.handled = s2.handled ++ s2.queue ∧
        ∀ later : List Action, (run smallLim later b3).smem[0]? = some s3 :=
  ⟨⟨[], rfl⟩, by decide, by decide,
    C2_stop_completes smallLim New ⟨[], rfl⟩ 1 1 0 busOne { g := 0, s := 0 } (by decide)
      [Action.emit (intEvent 1), Action.emit (intEvent 2)]⟩

/-- The scenario of `TestUnsubscribe`: stop, emit once more, stop again; first with
moves of any kind after a call that has returned, then with well-behaved handlers. -/
theorem C3_witness :
    Possible smallLim New ∧ On smallLim New (intEvent 0) = Outcome.ok busOne { g := 0, s := 0 } ∧
      StopFn.call { g := 0, s := 0 } (play smallLim [] busOne) = Outcome.ok busOneStopped () ∧
      (∃ g, (play smallLim [Move.act (Action.emit (intEvent 3))] busOneStopped).gmem[0]?
          = some g ∧
        0 ∉ g.subs ∧
        (g.m.canLock = true →
          StopFn.call { g := 0, s := 0 }
            (play smallLim [Move.act (Action.emit (intEvent 3))] busOneStopped)
          = Outcome.ok (play smallLim [Move.act (Action.emit (intEvent 3))] busOneStopped) ()) ∧
        (g.m.canLock = false →
          StopFn.call { g := 0, s := 0 }
            (play smallLim [Move.act (Action.emit (intEvent 3))] busOneStopped)
          = Outcome.blocked
            { play smallLim [Move.act (Action.emit (intEvent 3))] busOneStopped with
              gmem := (play smallLim [Move.act (Action.emit (intEvent 3))]
                busOneStopped).gmem.set 0 { g with m := g.m.heldW } })) ∧
      ∃ b3, StopFn.call { g := 0, s := 0 } busTwoEmits = Outcome.ok b3 () ∧
        StopFn.call { g := 0, s := 0 } (run smallLim [Action.emit (intEvent 3)] b3)
          = Outcome.ok (run smallLim [Action.emit (intEvent 3)] b3) () ∧
        StopFn.call { g := 0, s := 0 } b3 = Outcome.ok b3 () :=
  ⟨⟨[], rfl⟩, by decide, by decide,
    (C3_stop_idempotent smallLim New ⟨[], rfl⟩ 1 1 0 busOne { g := 0, s := 0 }
      (by decide)).1 [] busOneStopped (by decide) [Move.act (Action.emit (intEvent 3))],
    (C3_stop_idempotent smallLim New ⟨[], rfl⟩ 1 1 0 busOne { g := 0, s := 0 }
      (by decide)).2 ⟨[], rfl⟩
      [Action.emit (intEvent 1), Action.emit (intEvent 2)] [Action.emit (intEvent 3)]⟩

/-- The scenario of `TestChannelMatrix` with two subscribers, two channels and two emits
per channel: eight handler invocations. -/
theorem C5_witness :
    Reachable smallLim busMatrix ∧
      (∀ k ∈ [10, 11], (emitted k 3 matrixActs).length = 2) ∧
      (∀ k ∈ [10, 11], ∀ sub ∈ busMatrix.subsOfKey k,
        (run smallLim matrixActs busMatrix).handledCount sub = 2) ∧
      (run smallLim matrixActs busMatrix).totalHandled [10, 11] = 2 * [10, 11].length * 2 :=
  ⟨busMatrix_reachable, by decide,
    ((C5_fanout_exact smallLim busMatrix busMatrix_reachable).2 3 [10, 11] 2 2 matrixActs (by decide)
      (by
        intro k hk
        rcases List.mem_cons.mp hk with rfl | hk
        · exact ⟨0, { kind := 3, subs := [0, 2] }, rfl, rfl, rfl, rfl⟩
        · rcases List.mem_cons.mp hk with rfl | hk
          · exact ⟨1, { kind := 3, subs := [1, 3] }, rfl, rfl, rfl, rfl⟩
          · exact absurd hk (List.not_mem_nil _))
      (by decide) (by decide)).2.2.2 (by decide)
      (fun _ _ _ _ s hs =>
        (by decide : ∀ s ∈ (run smallLim matrixActs busMatrix).smem, s.queue = []) s
          (List.getElem?_mem hs))⟩

/-- An emit on channel 0 leaves a subscriber of channel 1 alone, and an emit under an
unbound key changes nothing. -/
theorem C6_witness :
    Reachable smallLim busMatrix ∧
      (Emit busMatrix (chanEvent 0)).state.smem[1]? = some
        { queue := [], cap := 1, closed := false, done := false, handled := [] } ∧
      Emit busOne otherEvent = Outcome.ok busOne () :=
  ⟨busMatrix_reachable,
    (C6_emit_isolated smallLim busMatrix busMatrix_reachable (chanEvent 0)).1 11 1
      { kind := 3, subs := [1, 3] } 1
      { queue := [], cap := 1, closed := false, done := false, handled := [] }
      (by decide) (by decide) (by decide) (by decide) (by decide),
    (C6_emit_isolated smallLim busOne busOne_reachable otherEvent).2.2 busOne (by decide)⟩

/-- Three subscriptions of one kind for a new key: one group, three subscribers. -/
theorem C7_witness :
    Reachable smallLim New ∧ Map.Get New.groups 0 = none ∧
      (run smallLim ([1, 1, 1].map fun n => Action.subscribe 1 n 0) New).groups = [(0, 0)] ∧
      (run smallLim ([1, 1, 1].map fun n => Action.subscribe 1 n 0) New).gmem
        = [{ kind := 1, subs := [0, 1, 2] }] :=
  ⟨⟨[], rfl⟩, rfl,
    ((C7_one_group_per_key smallLim New ⟨[], rfl⟩).2.2.2 0 1 [1, 1, 1] rfl (by decide)).1,
    ((C7_one_group_per_key smallLim New ⟨[], rfl⟩).2.2.2 0 1 [1, 1, 1] rfl (by decide)).2.1⟩

/-- Popping the first of three subscribers moves the last one into its slot. -/
theorem C9_witness :
    Reachable smallLim busThree ∧ busThree.gmem[0]? = some { kind := 1, subs := [0, 1, 2] } ∧
      swapRemove [0, 1, 2] 0 = [2, 1] ∧
      ∃ i s, Index [0, 1, 2] 0 = some i ∧ busThree.smem[0]? = some s ∧
        group.pop { kind := 1, subs := [0, 1, 2] } 0 busThree.smem = Outcome.ok
          ({ kind := 1, subs := swapRemove [0, 1, 2] i },
            busThree.smem.set 0 { queue := [], cap := s.cap, closed := true, done := true,
                                  handled := s.handled ++ s.queue }) () ∧
        (∀ x, x ≠ 0 →
          (busThree.smem.set 0
            { queue := [], cap := s.cap, closed := true, done := true,
              handled := s.handled ++ s.queue })[x]? = busThree.smem[x]?) ∧
        (swapRemove [0, 1, 2] i).length + 1 = [0, 1, 2].length ∧
        0 ∉ swapRemove [0, 1, 2] i ∧
        (swapRemove [0, 1, 2] i).Perm ([0, 1, 2].erase 0) ∧
        ∀ y, y ≠ 0 → (swapRemove [0, 1, 2] i).count y = [0, 1, 2].count y :=
  ⟨⟨_, rfl⟩, by decide, by decide,
    C9_pop_removes_exactly smallLim busThree ⟨_, rfl⟩ 0 { kind := 1, subs := [0, 1, 2] } 0
      (by decide) (by decide)⟩

/-- A third emit into a full buffer returns normally. -/
theorem C10_witness :
    Reachable smallLim busTwoEmits ∧
      (∃ b1, Emit busTwoEmits (intEvent 3) = Outcome.ok b1 ()) ∧
      Emit busTwoEmits (intEvent 3) = Outcome.ok
        { groups := [(0, 0)]
          gmem := [{ kind := 1, subs := [0] }]
          smem := [{ queue := [intEvent 3], cap := 1, closed := false, done := false,
                     handled := [intEvent 1, intEvent 2] }] } () :=
  ⟨busOne_reachable.run _,
    (C10_subscribers_open smallLim busTwoEmits (busOne_reachable.run _)).2.2 (intEvent 3) 0
      { kind := 1, subs := [0] } (by decide) (by decide) (by decide),
    by decide⟩

end Ebus
